import Mathlib

/-!
# uexplore: navigation state of the Unicode code point browser

A shallow embedding of `main.go`.  Go's `rune` is `int32`: it is modelled as an
`Int`, every arithmetic step on a rune going through `wrap32` (two's complement
wrap-around).  Go strings are byte sequences.  The Unicode tables the program
links against (`unicode.IsGraphic`, `runenames.Name`, `strings.ToUpper`,
`strconv.Quote`) are a parameter, `Unicode`.
-/

namespace Uexplore

/-! ## Machine integers -/

/-- Largest value of Go's `int32` (and so of `rune`). -/
def MaxInt32 : Int := 2147483647

/-- Smallest value of Go's `int32`. -/
def MinInt32 : Int := -2147483648

/-- The values an `int32` variable can hold. -/
def isInt32 (x : Int) : Prop := MinInt32 ≤ x ∧ x ≤ MaxInt32

instance (x : Int) : Decidable (isInt32 x) := by unfold isInt32; exact inferInstance

/-- Two's complement reduction of an integer to `int32`: what Go's `rune(x)` conversion
and `int32` arithmetic produce.  A value in range is kept, any other is taken modulo 2^32
into the range. -/
def wrap32 (x : Int) : Int :=
  if -2147483648 ≤ x ∧ x ≤ 2147483647 then x
  else (x + 2147483648) % 4294967296 - 2147483648

/-- `unicode.MaxRune`, the upper bound of the code point space. -/
def MaxRune : Int := 0x10FFFF

/-- `utf8.RuneError`, the replacement character U+FFFD. -/
def RuneError : Int := 0xFFFD

/-- A code point: an integer from 0 to `unicode.MaxRune`. -/
def isCodePoint (x : Int) : Prop := 0 ≤ x ∧ x ≤ MaxRune

instance (x : Int) : Decidable (isCodePoint x) := by unfold isCodePoint; exact inferInstance

/-! ## Strings -/

/-- A Go string: a sequence of bytes. -/
abbrev GoString := List (Fin 256)

/-- Model of `utf8.EncodeRune` on a valid scalar value given as a natural number
(anything else is encoded as U+FFFD, as Go does). -/
def EncodeRune (r : Nat) : GoString :=
  if r ≤ 0x7F then [Fin.ofNat r]
  else if r ≤ 0x7FF then [Fin.ofNat (0xC0 + r / 64), Fin.ofNat (0x80 + r % 64)]
  else if r > 0x10FFFF ∨ (0xD800 ≤ r ∧ r ≤ 0xDFFF) then [0xEF, 0xBF, 0xBD]
  else if r ≤ 0xFFFF then
    [Fin.ofNat (0xE0 + r / 4096), Fin.ofNat (0x80 + r / 64 % 64), Fin.ofNat (0x80 + r % 64)]
  else
    [Fin.ofNat (0xF0 + r / 262144), Fin.ofNat (0x80 + r / 4096 % 64),
     Fin.ofNat (0x80 + r / 64 % 64), Fin.ofNat (0x80 + r % 64)]

/-- The bytes of a string literal of the source (its UTF-8 encoding). -/
def str (s : String) : GoString := s.toList.flatMap (fun c => EncodeRune c.toNat)

/-- Model of `strings.Contains s substr`: `substr` occurs in `s` as a run of bytes. -/
def Contains : GoString → GoString → Bool
  | [], substr => substr.isEmpty
  | c :: s, substr => substr.isPrefixOf (c :: s) || Contains s substr

/-! ## The Unicode data the program is linked against -/

/-- The external tables and string functions of the Go libraries the program calls. -/
structure Unicode where
  /-- The classification `unicode.IsGraphic`. -/
  IsGraphic : Int → Bool
  /-- The name table `runenames.Name`. -/
  Name : Int → GoString
  /-- The case mapping `strings.ToUpper`. -/
  ToUpper : GoString → GoString
  /-- The quoting `strconv.Quote` used in the text of a numeric parse error. -/
  Quote : GoString → GoString

/-! ## The state -/

/-- The `state` struct of `main.go`. -/
structure state where
  current : Int
  unicodeMax : Int
  screenx : Int
  screeny : Int
  status : GoString
  searchPrev : GoString
deriving DecidableEq, Repr

/-- The rune fields of a state hold `int32` values, as their Go type says. -/
def state.valid (s : state) : Prop := isInt32 s.current ∧ isInt32 s.unicodeMax

instance (s : state) : Decidable s.valid := by unfold state.valid; exact inferInstance

/-! ## findNextPrintable, scroll, setMax -/

/-- The loop of `findNextPrintable`: `for ret < s.unicodeMax && !unicode.IsGraphic(ret) { ret++ }`,
run for at most `fuel` iterations. -/
def findNextPrintableLoop (u : Unicode) (s : state) : Nat → Int → Int
  | 0, ret => ret
  | fuel + 1, ret =>
    if ret < s.unicodeMax && !u.IsGraphic ret then
      findNextPrintableLoop u s fuel (wrap32 (ret + 1))
    else ret

/-- The function `findNextPrintable` of `main.go`.  The loop runs at most
`s.unicodeMax - ru` times, which is the fuel given to it. -/
def findNextPrintable (u : Unicode) (s : state) (ru : Int) : Int :=
  findNextPrintableLoop u s (s.unicodeMax - ru).toNat ru

/-- The function `scroll` of `main.go`. -/
def scroll (u : Unicode) (s : state) : state :=
  if s.current > s.unicodeMax then
    { s with current := s.unicodeMax }
  else
    let s1 := if s.current < 0 then { s with current := 0 } else s
    { s1 with current := findNextPrintable u s1 s1.current }

/-- The loop of `setMax`: `for !unicode.IsGraphic(s.unicodeMax) { s.unicodeMax-- }`.
It need not terminate, so it is given fuel and returns `none` when the fuel runs out. -/
def setMaxLoop (u : Unicode) : Nat → Int → Option Int
  | 0, _ => none
  | fuel + 1, m =>
    if !u.IsGraphic m then setMaxLoop u fuel (wrap32 (m - 1)) else some m

/-- The function `setMax` of `main.go`, with fuel for its loop. -/
def setMax (u : Unicode) (fuel : Nat) (s : state) : Option state :=
  (setMaxLoop u fuel 0x10FFFF).map (fun m => { s with unicodeMax := m })

/-! ## refresh -/

/-- The listing loop of `refresh`: `n` rows starting the scan at `ru`; each row shows
`findNextPrintable(s, ru)` and the scan resumes one past it. -/
def refreshRows (u : Unicode) (s : state) : Nat → Int → List Int
  | 0, _ => []
  | n + 1, ru =>
    let r := findNextPrintable u s ru
    r :: refreshRows u s n (wrap32 (r + 1))

/-- The state left by `refresh` when the terminal has size `sx` by `sy`. -/
def refresh (s : state) (sx sy : Int) : state :=
  { s with screenx := sx, screeny := sy }

/-- The code points listed by `refresh` when the terminal has height `sy`:
the loop `for i := 0; i < sy-2; i++` starting at `s.current`. -/
def refreshListed (u : Unicode) (s : state) (sy : Int) : List Int :=
  refreshRows u s (sy - 2).toNat s.current

/-! ## strconv.ParseUint -/

/-- The error value `*strconv.NumError`: the failing function, the input, and the text of
the wrapped error (`ErrSyntax` or `ErrRange`). -/
structure NumError where
  Func : GoString
  Num : GoString
  Err : GoString
deriving DecidableEq, Repr

/-- The method `(*NumError).Error` of `strconv`:
`"strconv." + e.Func + ": " + "parsing " + Quote(e.Num) + ": " + e.Err.Error()`. -/
def NumError.Error (u : Unicode) (e : NumError) : GoString :=
  str "strconv." ++ e.Func ++ str ": " ++ str "parsing " ++ u.Quote e.Num ++ str ": " ++ e.Err

/-- The error `syntaxError(fn, s)` of `strconv` for `ParseUint`. -/
def syntaxError (s : GoString) : NumError := ⟨str "ParseUint", s, str "invalid syntax"⟩

/-- The error `rangeError(fn, s)` of `strconv` for `ParseUint`. -/
def rangeError (s : GoString) : NumError := ⟨str "ParseUint", s, str "value out of range"⟩

/-- The helper `lower(c)` of `strconv`: `c | ('x' - 'X')`. -/
def lower (c : Fin 256) : Nat := c.val ||| 0x20

/-- The digit value of a byte in `strconv.ParseUint`, `none` when it is not a digit or letter. -/
def digitVal (c : Fin 256) : Option Nat :=
  if 0x30 ≤ c.val ∧ c.val ≤ 0x39 then some (c.val - 0x30)
  else if 0x61 ≤ lower c ∧ lower c ≤ 0x7A then some (lower c - 0x61 + 10)
  else none

/-- The digit loop of `strconv.ParseUint` for bit size 64: `s0` is the whole input (for
the error), `n` the value so far, `us` whether an underscore was seen.  The result is the
value and the underscore flag. -/
def parseDigits (s0 : GoString) (base : Nat) (base0 : Bool) :
    GoString → Nat → Bool → Except NumError (Nat × Bool)
  | [], n, us => .ok (n, us)
  | c :: cs, n, us =>
    if c.val = 0x5F ∧ base0 = true then parseDigits s0 base base0 cs n true
    else
      match digitVal c with
      | none => .error (syntaxError s0)
      | some d =>
        if d ≥ base then .error (syntaxError s0)
        else if n ≥ 18446744073709551615 / base + 1 then .error (rangeError s0)
        else
          let n := n * base
          let n1 := (n + d) % 18446744073709551616
          if n1 < n ∨ n1 > 18446744073709551615 then .error (rangeError s0)
          else parseDigits s0 base base0 cs n1 us

/-- The scan of `underscoreOK` in `strconv`: `saw` is `0` after a digit or base prefix,
`1` after an underscore, `2` at the start of the number and `3` after anything else. -/
def underscoreScan (hex : Bool) : GoString → Nat → Bool
  | [], saw => saw != 1
  | c :: cs, saw =>
    if (0x30 ≤ c.val ∧ c.val ≤ 0x39) ∨ (hex = true ∧ 0x61 ≤ lower c ∧ lower c ≤ 0x66) then
      underscoreScan hex cs 0
    else if c.val = 0x5F then
      if saw != 0 then false else underscoreScan hex cs 1
    else if saw == 1 then false
    else underscoreScan hex cs 3

/-- The helper `underscoreOK` of `strconv`: underscores only separate digits. -/
def underscoreOK (s : GoString) : Bool :=
  let s := match s with
    | c :: cs => if c.val = 0x2D ∨ c.val = 0x2B then cs else c :: cs
    | [] => []
  match s with
  | c0 :: c1 :: cs =>
    if c0.val = 0x30 ∧ (lower c1 = 0x62 ∨ lower c1 = 0x6F ∨ lower c1 = 0x78) then
      underscoreScan (lower c1 == 0x78) cs 0
    else underscoreScan false (c0 :: c1 :: cs) 2
  | s => underscoreScan false s 2

/-- Model of the call `strconv.ParseUint(s, 0, 64)`: the base is taken from the prefix
(`0b`, `0o`, `0x`, a leading `0` for octal, decimal otherwise). -/
def ParseUint (s : GoString) : Except NumError Nat :=
  match s with
  | [] => .error (syntaxError s)
  | c0 :: rest =>
    let (base, digits) : Nat × GoString :=
      if c0.val = 0x30 then
        match rest with
        | c1 :: c2 :: cs =>
          if lower c1 = 0x62 then (2, c2 :: cs)
          else if lower c1 = 0x6F then (8, c2 :: cs)
          else if lower c1 = 0x78 then (16, c2 :: cs)
          else (8, rest)
        | _ => (8, rest)
      else (10, s)
    match parseDigits s base true digits 0 false with
    | .error e => .error e
    | .ok (n, us) =>
      if us = true ∧ underscoreOK s = false then .error (syntaxError s) else .ok n

/-! ## utf8.DecodeRuneInString -/

/-- Whether a byte is a UTF-8 continuation byte (`locb <= c <= hicb`). -/
def isCont (c : Fin 256) : Bool := 0x80 ≤ c.val && c.val ≤ 0xBF

/-- Model of `utf8.DecodeRuneInString`: the first rune of `s` and its width in bytes;
`(RuneError, 0)` for the empty string and `(RuneError, 1)` for an invalid encoding. -/
def DecodeRuneInString (s : GoString) : Int × Nat :=
  match s with
  | [] => (RuneError, 0)
  | s0 :: t =>
    if s0.val < 0x80 then (s0.val, 1)
    else if s0.val < 0xC2 ∨ 0xF4 < s0.val then (RuneError, 1)
    else
      -- the width and the accepted range of the second byte, from the table `first`
      let sz : Nat := if s0.val < 0xE0 then 2 else if s0.val < 0xF0 then 3 else 4
      let lo : Nat := if s0.val = 0xE0 then 0xA0 else if s0.val = 0xF0 then 0x90 else 0x80
      let hi : Nat := if s0.val = 0xED then 0x9F else if s0.val = 0xF4 then 0x8F else 0xBF
      if t.length + 1 < sz then (RuneError, 1)
      else
        match t with
        | [] => (RuneError, 1)
        | s1 :: t1 =>
          if s1.val < lo ∨ hi < s1.val then (RuneError, 1)
          else if sz ≤ 2 then (((s0.val % 32) * 64 + s1.val % 64 : Nat), 2)
          else
            match t1 with
            | [] => (RuneError, 1)
            | s2 :: t2 =>
              if !isCont s2 then (RuneError, 1)
              else if sz ≤ 3 then
                (((s0.val % 16) * 4096 + (s1.val % 64) * 64 + s2.val % 64 : Nat), 3)
              else
                match t2 with
                | [] => (RuneError, 1)
                | s3 :: _ =>
                  if !isCont s3 then (RuneError, 1)
                  else
                    (((s0.val % 8) * 262144 + (s1.val % 64) * 4096 + (s2.val % 64) * 64
                      + s3.val % 64 : Nat), 4)

/-- A Unicode scalar value: a code point outside the surrogate range, the values that have
a valid UTF-8 encoding. -/
def isScalar (r : Nat) : Prop := r ≤ 0x10FFFF ∧ ¬ (0xD800 ≤ r ∧ r ≤ 0xDFFF)

instance (r : Nat) : Decidable (isScalar r) := by unfold isScalar; exact inferInstance

/-! ## The prompt and doKey -/

/-- What one call of `termutil.Prompt` does, seen from `doKey`: the terminal sizes at which
it invokes the redraw callback `func(_, _ int) { refresh(s) }`, in order, and the text the
user typed, which it returns. -/
structure Prompted where
  redraws : List (Int × Int)
  text : GoString
deriving DecidableEq, Repr

/-- The call `termutil.Prompt(label, func(_, _ int) { refresh(s) })`: the text typed and
the state after the redraws. -/
def Prompt (p : Prompted) (s : state) : GoString × state :=
  (p.text, p.redraws.foldl (fun st sz => refresh st sz.1 sz.2) s)

/-- The search loop of `doKey` for `"C-s"`:
`for s.current < s.unicodeMax { if strings.Contains(runenames.Name(s.current), queryNorm) { return } ; s.current++ }`.
The result is the matching code point, or `none` when the loop ends without a match. -/
def searchLoop (u : Unicode) (queryNorm : GoString) (max : Int) : Nat → Int → Option Int
  | 0, _ => none
  | fuel + 1, cur =>
    if cur < max then
      if Contains (u.Name cur) queryNorm then some cur
      else searchLoop u queryNorm max fuel (wrap32 (cur + 1))
    else none

/-- The loop of `doKey` for `"UP"`:
`for !unicode.IsGraphic(s.current) && s.current > 0 { s.current-- }`. -/
def stepUpLoop (u : Unicode) : Nat → Int → Int
  | 0, cur => cur
  | fuel + 1, cur =>
    if !u.IsGraphic cur && cur > 0 then stepUpLoop u fuel (wrap32 (cur - 1)) else cur

/-- The search term of `doKey` for `"C-s"`: `if query == "" { query = s.searchPrev }`. -/
def searchQuery (s : state) (query : GoString) : GoString :=
  if query = [] then s.searchPrev else query

/-- The function `doKey` of `main.go`: the key, what the prompt does if the command opens
one, and the state; the result is the return value and the state left. -/
def doKey (u : Unicode) (key : String) (p : Prompted) (s : state) : Bool × state :=
  if key = "C-c" then (false, s)
  else if key = "M-<" then (true, { s with current := 0 })
  else if key = "M->" then (true, { s with current := s.unicodeMax })
  else if key = "M-g" then
    let (dest, s) := Prompt p s
    match ParseUint dest with
    | .ok destrune =>
      if wrap32 destrune > s.unicodeMax then (true, { s with current := s.unicodeMax })
      else (true, { s with current := wrap32 destrune })
    | .error err => (true, { s with status := err.Error u })
  else if key = "C-s" then
    let (query, s) := Prompt p s
    let query := searchQuery s query
    let queryNorm := u.ToUpper query
    let orig := s.current
    let start := wrap32 (s.current + 1)
    match searchLoop u queryNorm s.unicodeMax (s.unicodeMax - start).toNat start with
    | some c => (true, { s with current := c, searchPrev := query })
    | none => (true, { s with status := str "No match found for " ++ query, current := orig })
  else if key = "C-f" then
    let (run, s) := Prompt p s
    let ru := (DecodeRuneInString run).1
    if ru = RuneError then (true, { s with status := str "No or erroneous rune provided" })
    else (true, { s with current := ru })
  else if key = "UP" ∨ key = "C-p" then
    let cur := wrap32 (s.current - 1)
    (true, { s with current := stepUpLoop u cur.toNat cur })
  else if key = "DOWN" ∨ key = "C-n" then (true, { s with current := wrap32 (s.current + 1) })
  else if key = "NEXT" ∨ key = "C-v" then
    (true, { s with current := wrap32 (s.current + wrap32 s.screeny) })
  else if key = "PRIOR" ∨ key = "C-z" ∨ key = "M-v" then
    (true, { s with current := wrap32 (s.current - wrap32 s.screeny) })
  else (true, s)

/-- One frame of the main loop before the event is read: `scroll(&s)` then `refresh(&s)`
at terminal size `sx` by `sy`. -/
def frame (u : Unicode) (s : state) (sx sy : Int) : state := refresh (scroll u s) sx sy

/-! ## Sample data for evaluating the definitions -/

/-- A small table: the graphic code points are the printable ASCII range, the name of a
code point is `CHAR ` followed by the character itself, upper-casing maps ASCII letters,
quoting wraps in double quotes. -/
def sampleUnicode : Unicode where
  IsGraphic := fun r => decide (0x20 ≤ r ∧ r ≤ 0x7E)
  Name := fun r => if 0x20 ≤ r ∧ r ≤ 0x7E then str "CHAR " ++ [Fin.ofNat r.toNat] else []
  ToUpper := fun s => s.map (fun c => if 0x61 ≤ c.val ∧ c.val ≤ 0x7A then Fin.ofNat (c.val - 0x20) else c)
  Quote := fun s => str "\"" ++ s ++ str "\""

/-- A state of the sample table: cursor at 0, `unicodeMax` as `setMax` leaves it. -/
def sampleState : state :=
  { current := 0, unicodeMax := 0x7E, screenx := 80, screeny := 24, status := [], searchPrev := [] }

/-! ## Machine integers: basic facts -/

/-- The reduction `wrap32` is the reduction modulo 2^32 into the `int32` range. -/
theorem wrap32_eq_emod (x : Int) : wrap32 x = (x + 2147483648) % 4294967296 - 2147483648 := by
  unfold wrap32
  split <;> omega

theorem wrap32_of_isInt32 (x : Int) (h : isInt32 x) : wrap32 x = x := by
  unfold isInt32 MinInt32 MaxInt32 at h
  unfold wrap32
  rw [if_pos h]

theorem isInt32_wrap32 (x : Int) : isInt32 (wrap32 x) := by
  unfold isInt32 MinInt32 MaxInt32 wrap32
  split <;> omega

theorem isInt32_of_isCodePoint (x : Int) (h : isCodePoint x) : isInt32 x := by
  unfold isCodePoint MaxRune at h
  unfold isInt32 MinInt32 MaxInt32
  omega

/-! ## findNextPrintable -/

/-- What the loop of `findNextPrintable` computes when its fuel covers the distance to
`unicodeMax`: it stops at the first code point from `ret` on that is graphic or has
reached `unicodeMax`. -/
theorem findNextPrintableLoop_spec (u : Unicode) (s : state) (hmax : s.unicodeMax ≤ MaxInt32) :
    ∀ (fuel : Nat) (ret : Int), MinInt32 ≤ ret → (s.unicodeMax - ret).toNat ≤ fuel →
      ret ≤ findNextPrintableLoop u s fuel ret ∧
      (ret ≤ s.unicodeMax → findNextPrintableLoop u s fuel ret ≤ s.unicodeMax) ∧
      (findNextPrintableLoop u s fuel ret < s.unicodeMax →
        u.IsGraphic (findNextPrintableLoop u s fuel ret) = true) ∧
      (∀ x, ret ≤ x → x < findNextPrintableLoop u s fuel ret → u.IsGraphic x = false) ∧
      (s.unicodeMax ≤ ret → findNextPrintableLoop u s fuel ret = ret) := by
  intro fuel
  induction fuel with
  | zero =>
    intro ret _ hfuel
    have hle : s.unicodeMax ≤ ret := by omega
    rw [findNextPrintableLoop]
    refine ⟨le_refl _, fun h => h, fun h => by omega, fun x h1 h2 => by omega, fun _ => rfl⟩
  | succ n ih =>
    intro ret hmin hfuel
    unfold findNextPrintableLoop
    by_cases hc : (decide (ret < s.unicodeMax) && !u.IsGraphic ret) = true
    · rw [if_pos hc]
      simp only [Bool.and_eq_true, decide_eq_true_eq, Bool.not_eq_true'] at hc
      obtain ⟨hlt, hng⟩ := hc
      have hw : wrap32 (ret + 1) = ret + 1 := by
        apply wrap32_of_isInt32
        unfold isInt32
        unfold MinInt32 at hmin ⊢
        unfold MaxInt32 at hmax ⊢
        omega
      rw [hw]
      have hmin1 : MinInt32 ≤ ret + 1 := by unfold MinInt32 at hmin ⊢; omega
      obtain ⟨h1, h2, h3, h4, h5⟩ := ih (ret + 1) hmin1 (by omega)
      refine ⟨by omega, fun _ => h2 (by omega), h3, ?_, fun h => by omega⟩
      intro x hx1 hx2
      by_cases hx : x = ret
      · rw [hx]; exact hng
      · exact h4 x (by omega) hx2
    · rw [if_neg hc]
      refine ⟨le_refl _, fun h => h, ?_, fun x h1 h2 => by omega, fun _ => rfl⟩
      intro hlt
      simp only [Bool.and_eq_true, decide_eq_true_eq, Bool.not_eq_true', not_and,
        Bool.not_eq_false] at hc
      exact hc hlt

/-- The function `findNextPrintable` on a state whose `unicodeMax` is an `int32`. -/
theorem findNextPrintable_spec (u : Unicode) (s : state) (ru : Int)
    (hmax : s.unicodeMax ≤ MaxInt32) (hmin : MinInt32 ≤ ru) :
    ru ≤ findNextPrintable u s ru ∧
    (ru ≤ s.unicodeMax → findNextPrintable u s ru ≤ s.unicodeMax) ∧
    (findNextPrintable u s ru < s.unicodeMax → u.IsGraphic (findNextPrintable u s ru) = true) ∧
    (∀ x, ru ≤ x → x < findNextPrintable u s ru → u.IsGraphic x = false) ∧
    (s.unicodeMax ≤ ru → findNextPrintable u s ru = ru) :=
  findNextPrintableLoop_spec u s hmax _ ru hmin (le_refl _)

/-- The fuel given to the loop of `findNextPrintable` is enough: at the value returned the
loop condition `ret < s.unicodeMax && !unicode.IsGraphic(ret)` is false. -/
theorem findNextPrintable_exit (u : Unicode) (s : state) (ru : Int)
    (hmax : s.unicodeMax ≤ MaxInt32) (hmin : MinInt32 ≤ ru) :
    (decide (findNextPrintable u s ru < s.unicodeMax) && !u.IsGraphic (findNextPrintable u s ru))
      = false := by
  obtain ⟨_, _, h3, _, _⟩ := findNextPrintable_spec u s ru hmax hmin
  by_cases hlt : findNextPrintable u s ru < s.unicodeMax
  · simp [h3 hlt]
  · simp [hlt]

/-- A graphic code point is returned as it is. -/
theorem findNextPrintable_of_graphic (u : Unicode) (s : state) (ru : Int)
    (hg : u.IsGraphic ru = true) : findNextPrintable u s ru = ru := by
  unfold findNextPrintable
  cases (s.unicodeMax - ru).toNat with
  | zero => rfl
  | succ n => simp [findNextPrintableLoop, hg]

/-- C1: on a state whose `unicodeMax` is a displayable code point, for `0 <= c <= unicodeMax`,
`findNextPrintable(s, c)` is the smallest displayable code point `r` with `c <= r`: it is
displayable, `c <= r <= unicodeMax`, and no code point in `[c, r)` is displayable. -/
theorem findNextPrintable_least (u : Unicode) (s : state) (c : Int)
    (hcp : isCodePoint s.unicodeMax) (hg : u.IsGraphic s.unicodeMax = true)
    (h0 : 0 ≤ c) (hc : c ≤ s.unicodeMax) :
    u.IsGraphic (findNextPrintable u s c) = true ∧
    c ≤ findNextPrintable u s c ∧
    findNextPrintable u s c ≤ s.unicodeMax ∧
    (∀ x, c ≤ x → x < findNextPrintable u s c → u.IsGraphic x = false) ∧
    (∀ x, c ≤ x → u.IsGraphic x = true → findNextPrintable u s c ≤ x) := by
  have hmax : s.unicodeMax ≤ MaxInt32 := (isInt32_of_isCodePoint _ hcp).2
  have hmin : MinInt32 ≤ c := by unfold MinInt32; omega
  obtain ⟨h1, h2, h3, h4, _⟩ := findNextPrintable_spec u s c hmax hmin
  have hle := h2 hc
  refine ⟨?_, h1, hle, h4, ?_⟩
  · by_cases hlt : findNextPrintable u s c < s.unicodeMax
    · exact h3 hlt
    · have : findNextPrintable u s c = s.unicodeMax := by omega
      rw [this]; exact hg
  · intro x hx hgx
    by_contra hcon
    have := h4 x hx (by omega)
    rw [this] at hgx
    exact Bool.noConfusion hgx

/-- The sample table at `c = 0`: the hypotheses of C1 hold and its conclusion follows. -/
theorem findNextPrintable_least_witness :
    isCodePoint sampleState.unicodeMax ∧ sampleUnicode.IsGraphic sampleState.unicodeMax = true ∧
    (0 : Int) ≤ 0 ∧ (0 : Int) ≤ sampleState.unicodeMax ∧
    (sampleUnicode.IsGraphic (findNextPrintable sampleUnicode sampleState 0) = true ∧
    0 ≤ findNextPrintable sampleUnicode sampleState 0 ∧
    findNextPrintable sampleUnicode sampleState 0 ≤ sampleState.unicodeMax ∧
    (∀ x, 0 ≤ x → x < findNextPrintable sampleUnicode sampleState 0 →
      sampleUnicode.IsGraphic x = false) ∧
    (∀ x, 0 ≤ x → sampleUnicode.IsGraphic x = true →
      findNextPrintable sampleUnicode sampleState 0 ≤ x)) :=
  ⟨by decide, by decide, by decide, by decide,
    findNextPrintable_least sampleUnicode sampleState 0 (by decide) (by decide) (by decide)
      (by decide)⟩
/-! ## setMax -/

/-- The loop of `setMax` started at `m`, when some graphic `c` with `0 <= c <= m` exists and
the fuel exceeds the distance from `m` down to `c`: it returns the largest graphic code
point not above `m`. -/
theorem setMaxLoop_spec (u : Unicode) (c : Int) (h0 : 0 ≤ c) (hg : u.IsGraphic c = true) :
    ∀ (fuel : Nat) (m : Int), c ≤ m → m ≤ MaxInt32 → (m - c).toNat < fuel →
      ∃ r, setMaxLoop u fuel m = some r ∧ u.IsGraphic r = true ∧ c ≤ r ∧ r ≤ m ∧
        ∀ x, r < x → x ≤ m → u.IsGraphic x = false := by
  intro fuel
  induction fuel with
  | zero => intro m _ _ h; omega
  | succ n ih =>
    intro m hcm hm hfuel
    unfold setMaxLoop
    by_cases hgm : u.IsGraphic m = true
    · refine ⟨m, by simp [hgm], hgm, hcm, le_refl _, fun x h1 h2 => by omega⟩
    · have hgm' : u.IsGraphic m = false := by simpa using hgm
      have hne : c ≠ m := by
        intro h; rw [h] at hg; exact hgm hg
      have hw : wrap32 (m - 1) = m - 1 := by
        apply wrap32_of_isInt32
        unfold isInt32 MinInt32
        unfold MaxInt32 at hm ⊢
        omega
      simp only [hgm', Bool.not_false, if_true, hw]
      obtain ⟨r, hr, hgr, hcr, hrm, hall⟩ := ih (m - 1) (by omega) (by omega) (by omega)
      refine ⟨r, hr, hgr, hcr, by omega, ?_⟩
      intro x h1 h2
      by_cases hx : x = m
      · rw [hx]; exact hgm'
      · exact hall x h1 (by omega)

/-- C2: provided some code point in `[0, 0x10FFFF]` is displayable, `setMax` terminates (any
fuel from `0x110000` on is enough) and sets `unicodeMax`, leaving the other fields alone,
to a displayable code point `m <= 0x10FFFF` such that every code point in `(m, 0x10FFFF]`
is non-displayable. -/
theorem setMax_largest (u : Unicode) (s : state)
    (h : ∃ c, isCodePoint c ∧ u.IsGraphic c = true) :
    ∃ m, (∀ fuel, 0x110000 ≤ fuel → setMax u fuel s = some { s with unicodeMax := m }) ∧
      isCodePoint m ∧ u.IsGraphic m = true ∧
      (∀ x, m < x → x ≤ 0x10FFFF → u.IsGraphic x = false) := by
  obtain ⟨c, ⟨hc0, hc1⟩, hg⟩ := h
  unfold MaxRune at hc1
  have key : ∀ fuel : Nat, 0x110000 ≤ fuel →
      ∃ r, setMaxLoop u fuel 0x10FFFF = some r ∧ u.IsGraphic r = true ∧ c ≤ r ∧ r ≤ 0x10FFFF ∧
        ∀ x, r < x → x ≤ 0x10FFFF → u.IsGraphic x = false := by
    intro fuel hfuel
    exact setMaxLoop_spec u c hc0 hg fuel 0x10FFFF hc1 (by unfold MaxInt32; omega) (by omega)
  obtain ⟨m, hm, hgm, hcm, hmle, hall⟩ := key 0x110000 (le_refl _)
  refine ⟨m, ?_, ⟨by omega, by unfold MaxRune; exact hmle⟩, hgm, hall⟩
  intro fuel hfuel
  obtain ⟨r, hr, hgr, hcr, hrle, hallr⟩ := key fuel hfuel
  have hrm : r = m := by
    rcases lt_trichotomy r m with hlt | heq | hgt
    · have := hallr m hlt hmle
      rw [this] at hgm; exact Bool.noConfusion hgm
    · exact heq
    · have := hall r hgt hrle
      rw [this] at hgr; exact Bool.noConfusion hgr
  unfold setMax
  rw [hr, hrm]
  rfl

/-- The sample table has a displayable code point, so C2 applies to it. -/
theorem setMax_largest_witness :
    (∃ c, isCodePoint c ∧ sampleUnicode.IsGraphic c = true) ∧
    ∃ m, (∀ fuel, 0x110000 ≤ fuel →
        setMax sampleUnicode fuel sampleState = some { sampleState with unicodeMax := m }) ∧
      isCodePoint m ∧ sampleUnicode.IsGraphic m = true ∧
      (∀ x, m < x → x ≤ 0x10FFFF → sampleUnicode.IsGraphic x = false) :=
  ⟨⟨0x41, by decide, by decide⟩, setMax_largest sampleUnicode sampleState ⟨0x41, by decide, by decide⟩⟩

/-! ## scroll -/

/-- C3: for every state with `unicodeMax >= 0` and every value of `current` (negative or
above `unicodeMax` included), after `scroll` the state satisfies
`0 <= current <= unicodeMax`. -/
theorem scroll_clamps (u : Unicode) (s : state) (hv : isInt32 s.unicodeMax)
    (h0 : 0 ≤ s.unicodeMax) :
    0 ≤ (scroll u s).current ∧ (scroll u s).current ≤ (scroll u s).unicodeMax ∧
    (scroll u s).unicodeMax = s.unicodeMax := by
  unfold scroll
  by_cases h1 : s.current > s.unicodeMax
  · rw [if_pos h1]
    exact ⟨h0, le_refl _, rfl⟩
  · rw [if_neg h1]
    by_cases h2 : s.current < 0
    · simp only [if_pos h2]
      obtain ⟨a, b, _⟩ := findNextPrintable_spec u { s with current := 0 } 0 hv.2
        (by unfold MinInt32; omega)
      exact ⟨a, b h0, trivial⟩
    · simp only [if_neg h2]
      obtain ⟨a, b, _⟩ := findNextPrintable_spec u s s.current hv.2
        (by unfold MinInt32; omega)
      exact ⟨by omega, b (by omega), trivial⟩

/-- A state with a negative cursor: C3 applies and `scroll` brings the cursor into range. -/
theorem scroll_clamps_witness :
    isInt32 ({ sampleState with current := -5 } : state).unicodeMax ∧
    0 ≤ ({ sampleState with current := -5 } : state).unicodeMax ∧
    (0 ≤ (scroll sampleUnicode { sampleState with current := -5 }).current ∧
     (scroll sampleUnicode { sampleState with current := -5 }).current
       ≤ (scroll sampleUnicode { sampleState with current := -5 }).unicodeMax ∧
     (scroll sampleUnicode { sampleState with current := -5 }).unicodeMax
       = ({ sampleState with current := -5 } : state).unicodeMax) :=
  ⟨by decide, by decide,
    scroll_clamps sampleUnicode { sampleState with current := -5 } (by decide) (by decide)⟩

/-- C4: for every state whose `unicodeMax` is a displayable code point and every value of
`current`, the code point in `current` after `scroll` is displayable; so on each frame of
the main loop (`scroll`, then `refresh`) the cursor holds a displayable code point, and it
is the code point listed on the first row of the frame. -/
theorem scroll_displayable (u : Unicode) (s : state)
    (hcp : isCodePoint s.unicodeMax) (hg : u.IsGraphic s.unicodeMax = true) :
    u.IsGraphic (scroll u s).current = true ∧
    (∀ sx sy, u.IsGraphic (frame u s sx sy).current = true) ∧
    (∀ sy, 2 < sy → (refreshListed u (scroll u s) sy).head? = some (scroll u s).current) := by
  have hscroll : u.IsGraphic (scroll u s).current = true := by
    unfold scroll
    by_cases h1 : s.current > s.unicodeMax
    · rw [if_pos h1]; exact hg
    · rw [if_neg h1]
      by_cases h2 : s.current < 0
      · simp only [if_pos h2]
        exact (findNextPrintable_least u { s with current := 0 } 0 hcp hg (le_refl _) hcp.1).1
      · simp only [if_neg h2]
        exact (findNextPrintable_least u s s.current hcp hg (by omega) (by omega)).1
  refine ⟨hscroll, fun sx sy => hscroll, ?_⟩
  intro sy hsy
  unfold refreshListed
  obtain ⟨n, hn⟩ : ∃ n, (sy - 2).toNat = n + 1 := ⟨(sy - 2).toNat - 1, by omega⟩
  rw [hn]
  simp only [refreshRows, List.head?_cons]
  rw [findNextPrintable_of_graphic u _ _ hscroll]

/-- The sample state with the cursor above the range: C4 applies to it. -/
theorem scroll_displayable_witness :
    isCodePoint ({ sampleState with current := 500 } : state).unicodeMax ∧
    sampleUnicode.IsGraphic ({ sampleState with current := 500 } : state).unicodeMax = true ∧
    (sampleUnicode.IsGraphic (scroll sampleUnicode { sampleState with current := 500 }).current
        = true ∧
     (∀ sx sy, sampleUnicode.IsGraphic
        (frame sampleUnicode { sampleState with current := 500 } sx sy).current = true) ∧
     (∀ sy, 2 < sy →
        (refreshListed sampleUnicode (scroll sampleUnicode { sampleState with current := 500 })
          sy).head? = some (scroll sampleUnicode { sampleState with current := 500 }).current)) :=
  ⟨by decide, by decide,
    scroll_displayable sampleUnicode { sampleState with current := 500 } (by decide) (by decide)⟩

/-! ## The prompt -/

/-- The redraws of a prompt only touch the recorded terminal size. -/
theorem Prompt_fields (p : Prompted) (s : state) :
    (Prompt p s).1 = p.text ∧ (Prompt p s).2.current = s.current ∧
    (Prompt p s).2.unicodeMax = s.unicodeMax ∧ (Prompt p s).2.status = s.status ∧
    (Prompt p s).2.searchPrev = s.searchPrev := by
  obtain ⟨redraws, text⟩ := p
  unfold Prompt
  simp only [true_and]
  induction redraws generalizing s with
  | nil => exact ⟨rfl, rfl, rfl, rfl⟩
  | cons sz rest ih =>
    simp only [List.foldl_cons]
    exact ih (refresh s sz.1 sz.2)

/-- A prompt that only redraws at the terminal size the state already records leaves the
state as it was. -/
theorem Prompt_same_size (p : Prompted) (s : state)
    (h : ∀ sz ∈ p.redraws, sz = (s.screenx, s.screeny)) : (Prompt p s).2 = s := by
  obtain ⟨redraws, text⟩ := p
  unfold Prompt
  simp only at h ⊢
  induction redraws with
  | nil => rfl
  | cons sz rest ih =>
    simp only [List.foldl_cons]
    have hsz : sz = (s.screenx, s.screeny) := h sz (List.mem_cons_self _ _)
    have hs : refresh s sz.1 sz.2 = s := by rw [hsz]; rfl
    rw [hs]
    exact ih (fun z hz => h z (List.mem_cons_of_mem _ hz))

/-! ## doKey: jump to a number -/

/-- The jump command on an input that parses to `n`: the parsed value is converted to a
rune (`int32`) and only then compared with `unicodeMax`. -/
theorem doKey_jump_parsed (u : Unicode) (p : Prompted) (s : state) (n : Nat)
    (hp : ParseUint p.text = .ok n) :
    doKey u "M-g" p s =
      (true, { (Prompt p s).2 with
        current := if wrap32 n > s.unicodeMax then s.unicodeMax else wrap32 n }) := by
  have hf := Prompt_fields p s
  simp only [doKey, String.reduceEq, if_false, if_true]
  rw [hf.1, hp]
  simp only [hf.2.2.1]
  split <;> rfl

/-- The jump command clamps to `unicodeMax` every parsed value that fits a rune:
for `n <= MaxInt32` it sets `current` to `min(n, unicodeMax)`. -/
theorem doKey_jump_in_range (u : Unicode) (p : Prompted) (s : state) (n : Nat)
    (hp : ParseUint p.text = .ok n) (hn : (n : Int) ≤ MaxInt32) :
    (doKey u "M-g" p s).2.current = min (n : Int) s.unicodeMax := by
  rw [doKey_jump_parsed u p s n hp]
  have hw : wrap32 n = n := wrap32_of_isInt32 _ ⟨by unfold MinInt32; omega, hn⟩
  simp only [hw]
  split <;> omega

/-- C5, at the input `4294967361` (2^32 + 65): it parses successfully to a value above
`unicodeMax`, and the jump command sets `current` to 65, the value truncated to 32 bits,
where the claim gives `min(n, unicodeMax) = unicodeMax = 126`.  The input `0x41` sets
`current` to 65 as claimed. -/
theorem doKey_jump_truncates :
    ParseUint (str "4294967361") = .ok 4294967361 ∧
    (doKey sampleUnicode "M-g" ⟨[], str "4294967361"⟩ sampleState).2.current = 65 ∧
    min (4294967361 : Int) sampleState.unicodeMax = 126 ∧
    (doKey sampleUnicode "M-g" ⟨[], str "2147483648"⟩ sampleState).2.current = -2147483648 ∧
    (doKey sampleUnicode "M-g" ⟨[], str "0x41"⟩ sampleState).2.current = 65 :=
  ⟨by rfl, by decide, by decide, by decide, by decide⟩

/-- The text of a numeric parse error is never empty: it starts with `strconv.`. -/
theorem NumError.Error_ne_nil (u : Unicode) (e : NumError) : e.Error u ≠ [] := by
  have h : str "strconv." ≠ [] := by decide
  unfold NumError.Error
  simp [List.append_eq_nil, h]

/-- C6, at a terminal resized while the prompt is open: the input `not-a-number` fails to
parse, and the redraw callback of the prompt (`refresh`) has recorded the new terminal
height in `screeny`, a field other than `status`. -/
theorem doKey_jump_error_resized :
    ParseUint (str "not-a-number") = .error (syntaxError (str "not-a-number")) ∧
    (doKey sampleUnicode "M-g" ⟨[(100, 40)], str "not-a-number"⟩ sampleState).2.screeny
      ≠ sampleState.screeny :=
  ⟨by rfl, by decide⟩

/-- C6, amended: for every state and every prompt input that fails to parse, the jump command
returns true, sets `status` to the parse error text, which is not empty, and leaves
`current`, `unicodeMax` and `searchPrev` unchanged; `screenx` and `screeny` are as the
redraws of the prompt left them, unchanged when every redraw saw the terminal size the state
already recorded. -/
theorem doKey_jump_error (u : Unicode) (p : Prompted) (s : state) (e : NumError)
    (hp : ParseUint p.text = .error e) :
    doKey u "M-g" p s = (true, { (Prompt p s).2 with status := e.Error u }) ∧
    (doKey u "M-g" p s).1 = true ∧
    (doKey u "M-g" p s).2.status = e.Error u ∧
    (doKey u "M-g" p s).2.status ≠ [] ∧
    (doKey u "M-g" p s).2.current = s.current ∧
    (doKey u "M-g" p s).2.unicodeMax = s.unicodeMax ∧
    (doKey u "M-g" p s).2.searchPrev = s.searchPrev ∧
    ((∀ sz ∈ p.redraws, sz = (s.screenx, s.screeny)) →
      doKey u "M-g" p s = (true, { s with status := e.Error u })) := by
  have hf := Prompt_fields p s
  have hd : doKey u "M-g" p s = (true, { (Prompt p s).2 with status := e.Error u }) := by
    simp only [doKey, String.reduceEq, if_false, if_true]
    rw [hf.1, hp]
  rw [hd]
  refine ⟨rfl, rfl, rfl, NumError.Error_ne_nil u e, hf.2.1, hf.2.2.1, hf.2.2.2.2, ?_⟩
  intro hsz
  rw [Prompt_same_size p s hsz]

/-- The input `not-a-number` on the sample state, with a redraw at a new terminal size. -/
theorem doKey_jump_error_witness :
    ParseUint (⟨[(100, 40)], str "not-a-number"⟩ : Prompted).text
      = .error (syntaxError (str "not-a-number")) ∧
    (doKey sampleUnicode "M-g" ⟨[(100, 40)], str "not-a-number"⟩ sampleState).2.current
      = sampleState.current :=
  ⟨by rfl, (doKey_jump_error sampleUnicode ⟨[(100, 40)], str "not-a-number"⟩ sampleState
    (syntaxError (str "not-a-number")) (by rfl)).2.2.2.2.1⟩

/-! ## doKey: search by name -/

/-- What the search loop computes when its fuel covers the distance to `max`: the first
code point from `cur` on and below `max` whose name contains the term, if there is one. -/
theorem searchLoop_spec (u : Unicode) (q : GoString) (max : Int) (hmax : max ≤ MaxInt32) :
    ∀ (fuel : Nat) (cur : Int), MinInt32 ≤ cur → (max - cur).toNat ≤ fuel →
      (∀ c, searchLoop u q max fuel cur = some c →
        cur ≤ c ∧ c < max ∧ Contains (u.Name c) q = true ∧
        ∀ x, cur ≤ x → x < c → Contains (u.Name x) q = false) ∧
      (searchLoop u q max fuel cur = none →
        ∀ x, cur ≤ x → x < max → Contains (u.Name x) q = false) := by
  intro fuel
  induction fuel with
  | zero =>
    intro cur _ hfuel
    rw [searchLoop]
    exact ⟨fun c h => Option.noConfusion h, fun _ x h1 h2 => by omega⟩
  | succ n ih =>
    intro cur hmin hfuel
    rw [searchLoop]
    by_cases hlt : cur < max
    · rw [if_pos hlt]
      by_cases hc : Contains (u.Name cur) q = true
      · rw [if_pos hc]
        refine ⟨?_, fun h => Option.noConfusion h⟩
        intro c h
        have hcc : cur = c := Option.some.inj h
        rw [← hcc]
        exact ⟨le_refl _, hlt, hc, fun x h1 h2 => by omega⟩
      · rw [if_neg hc]
        have hcf : Contains (u.Name cur) q = false := by simpa using hc
        have hw : wrap32 (cur + 1) = cur + 1 := by
          apply wrap32_of_isInt32
          unfold isInt32
          unfold MinInt32 at hmin ⊢
          unfold MaxInt32 at hmax ⊢
          omega
        rw [hw]
        have hmin1 : MinInt32 ≤ cur + 1 := by unfold MinInt32 at hmin ⊢; omega
        obtain ⟨h1, h2⟩ := ih (cur + 1) hmin1 (by omega)
        constructor
        · intro c h
          obtain ⟨a, b, d, e⟩ := h1 c h
          refine ⟨by omega, b, d, ?_⟩
          intro x hx1 hx2
          by_cases hx : x = cur
          · rw [hx]; exact hcf
          · exact e x (by omega) hx2
        · intro h x hx1 hx2
          by_cases hx : x = cur
          · rw [hx]; exact hcf
          · exact h2 h x (by omega) hx2
    · rw [if_neg hlt]
      exact ⟨fun c h => Option.noConfusion h, fun _ x h1 h2 => by omega⟩

/-- The search command in terms of its loop. -/
theorem doKey_search_eq (u : Unicode) (p : Prompted) (s : state) :
    doKey u "C-s" p s =
      match searchLoop u (u.ToUpper (searchQuery s p.text)) s.unicodeMax
          (s.unicodeMax - wrap32 (s.current + 1)).toNat (wrap32 (s.current + 1)) with
      | some c => (true, { (Prompt p s).2 with current := c, searchPrev := searchQuery s p.text })
      | none => (true, { (Prompt p s).2 with
          status := str "No match found for " ++ searchQuery s p.text, current := s.current }) := by
  have hf := Prompt_fields p s
  have hq : searchQuery (Prompt p s).2 p.text = searchQuery s p.text := by
    unfold searchQuery; rw [hf.2.2.2.2]
  simp only [doKey, String.reduceEq, if_false, if_true]
  rw [hf.1, hf.2.1, hf.2.2.1, hq]

/-- The search command finds the first match below `unicodeMax`: if some code point `c` with
`current < c < unicodeMax` has a name containing the upper-cased search term, `current`
becomes the smallest such `c` and `searchPrev` the search term. -/
theorem doKey_search_found (u : Unicode) (p : Prompted) (s : state) (c : Int)
    (hv : s.valid) (h1 : s.current < c) (h2 : c < s.unicodeMax)
    (hc : Contains (u.Name c) (u.ToUpper (searchQuery s p.text)) = true) :
    (doKey u "C-s" p s).1 = true ∧
    s.current < (doKey u "C-s" p s).2.current ∧
    (doKey u "C-s" p s).2.current ≤ c ∧
    Contains (u.Name (doKey u "C-s" p s).2.current) (u.ToUpper (searchQuery s p.text)) = true ∧
    (∀ x, s.current < x → x < (doKey u "C-s" p s).2.current →
      Contains (u.Name x) (u.ToUpper (searchQuery s p.text)) = false) ∧
    (doKey u "C-s" p s).2.searchPrev = searchQuery s p.text := by
  obtain ⟨⟨hcmin, _⟩, ⟨_, hmax⟩⟩ := hv
  have hw : wrap32 (s.current + 1) = s.current + 1 := by
    apply wrap32_of_isInt32
    unfold isInt32
    unfold MinInt32 at hcmin ⊢
    unfold MaxInt32 at hmax ⊢
    omega
  have hmin1 : MinInt32 ≤ s.current + 1 := by unfold MinInt32 at hcmin ⊢; omega
  obtain ⟨hsome, hnone⟩ := searchLoop_spec u (u.ToUpper (searchQuery s p.text)) s.unicodeMax hmax
    (s.unicodeMax - (s.current + 1)).toNat (s.current + 1) hmin1 (le_refl _)
  rw [doKey_search_eq, hw]
  cases hres : searchLoop u (u.ToUpper (searchQuery s p.text)) s.unicodeMax
      (s.unicodeMax - (s.current + 1)).toNat (s.current + 1) with
  | none =>
    have := hnone hres c (by omega) h2
    rw [this] at hc
    exact Bool.noConfusion hc
  | some r =>
    obtain ⟨a, b, d, e⟩ := hsome r hres
    refine ⟨rfl, ?_, ?_, d, ?_, rfl⟩
    · show s.current < r
      omega
    · show r ≤ c
      by_contra hcon
      have := e c (by omega) (by omega)
      rw [this] at hc
      exact Bool.noConfusion hc
    · intro x hx1 hx2
      exact e x (by omega) hx2

/-- C7, at a match on `unicodeMax` itself: on the sample table `~` (126) is `unicodeMax`, its
name contains the upper-cased query `char ~`, and it lies in `(current, unicodeMax]` for
`current = 65`; the search command does not reach it: it reports no match and leaves
`current` at 65 and `searchPrev` as it was. -/
theorem doKey_search_misses_unicodeMax :
    ({ sampleState with current := 65 } : state).current < 126 ∧
    (126 : Int) ≤ ({ sampleState with current := 65 } : state).unicodeMax ∧
    Contains (sampleUnicode.Name 126) (sampleUnicode.ToUpper (str "char ~")) = true ∧
    doKey sampleUnicode "C-s" ⟨[], str "char ~"⟩ { sampleState with current := 65 } =
      (true, { sampleState with current := 65, status := str "No match found for char ~" }) :=
  ⟨by decide, by decide, by decide, by decide⟩

/-- C8: for every state and every query such that no code point scanned by the search (those
from `current + 1` up to, not including, `unicodeMax`) has a name containing the upper-cased
search term, the search command returns true, leaves `current`, `searchPrev` and
`unicodeMax` unchanged and sets `status` to `No match found for ` followed by the search
term.  The search term is the typed query, or `searchPrev` when the typed query is empty. -/
theorem doKey_search_miss (u : Unicode) (p : Prompted) (s : state)
    (hv : isInt32 s.unicodeMax)
    (hmiss : ∀ c, wrap32 (s.current + 1) ≤ c → c < s.unicodeMax →
      Contains (u.Name c) (u.ToUpper (searchQuery s p.text)) = false) :
    (doKey u "C-s" p s).1 = true ∧
    (doKey u "C-s" p s).2.current = s.current ∧
    (doKey u "C-s" p s).2.searchPrev = s.searchPrev ∧
    (doKey u "C-s" p s).2.unicodeMax = s.unicodeMax ∧
    (doKey u "C-s" p s).2.status = str "No match found for " ++ searchQuery s p.text ∧
    (p.text ≠ [] → (doKey u "C-s" p s).2.status = str "No match found for " ++ p.text) := by
  have hf := Prompt_fields p s
  obtain ⟨hsome, _⟩ := searchLoop_spec u (u.ToUpper (searchQuery s p.text)) s.unicodeMax hv.2
    (s.unicodeMax - wrap32 (s.current + 1)).toNat (wrap32 (s.current + 1))
    (isInt32_wrap32 _).1 (le_refl _)
  have hq : p.text ≠ [] → searchQuery s p.text = p.text := by
    intro h; unfold searchQuery; rw [if_neg h]
  rw [doKey_search_eq]
  cases hres : searchLoop u (u.ToUpper (searchQuery s p.text)) s.unicodeMax
      (s.unicodeMax - wrap32 (s.current + 1)).toNat (wrap32 (s.current + 1)) with
  | none =>
    refine ⟨rfl, rfl, hf.2.2.2.2, hf.2.2.1, rfl, ?_⟩
    intro h
    show str "No match found for " ++ searchQuery s p.text = _
    rw [hq h]
  | some r =>
    obtain ⟨a, b, d, _⟩ := hsome r hres
    have := hmiss r a b
    rw [this] at d
    exact Bool.noConfusion d

/-- The nonsense query `ZZZQQQNOTAREALNAME` on the sample state: no scanned name contains
it, and the search leaves `current` where it was. -/
theorem doKey_search_miss_witness :
    isInt32 sampleState.unicodeMax ∧
    (doKey sampleUnicode "C-s" ⟨[], str "ZZZQQQNOTAREALNAME"⟩ sampleState).2.current
      = sampleState.current ∧
    (doKey sampleUnicode "C-s" ⟨[], str "ZZZQQQNOTAREALNAME"⟩ sampleState).2.status
      = str "No match found for " ++ str "ZZZQQQNOTAREALNAME" :=
  have h := doKey_search_miss sampleUnicode ⟨[], str "ZZZQQQNOTAREALNAME"⟩ sampleState
    (by decide) (by
      intro c h1 h2
      have hw : wrap32 (sampleState.current + 1) = 1 := by decide
      rw [hw] at h1
      have hu : sampleState.unicodeMax = 126 := rfl
      rw [hu] at h2
      interval_cases c <;> decide)
  ⟨by decide, h.2.1, h.2.2.2.2.1⟩

/-- A code point returned by the search loop is a match below `max`, whatever the fuel. -/
theorem searchLoop_some (u : Unicode) (q : GoString) (max : Int) :
    ∀ (fuel : Nat) (cur c : Int), searchLoop u q max fuel cur = some c →
      Contains (u.Name c) q = true ∧ c < max := by
  intro fuel
  induction fuel with
  | zero => intro cur c h; rw [searchLoop] at h; exact Option.noConfusion h
  | succ n ih =>
    intro cur c h
    rw [searchLoop] at h
    by_cases hlt : cur < max
    · rw [if_pos hlt] at h
      by_cases hc : Contains (u.Name cur) q = true
      · rw [if_pos hc] at h
        have hcc : cur = c := Option.some.inj h
        rw [← hcc]
        exact ⟨hc, hlt⟩
      · rw [if_neg hc] at h
        exact ih _ c h
    · rw [if_neg hlt] at h
      exact Option.noConfusion h

/-- The jump command on an input that fails to parse. -/
theorem doKey_jump_failed (u : Unicode) (p : Prompted) (s : state) (e : NumError)
    (hp : ParseUint p.text = .error e) :
    doKey u "M-g" p s = (true, { (Prompt p s).2 with status := e.Error u }) := by
  simp only [doKey, String.reduceEq, if_false, if_true]
  rw [(Prompt_fields p s).1, hp]

/-- The find command in terms of the decoded rune. -/
theorem doKey_find_eq (u : Unicode) (p : Prompted) (s : state) :
    doKey u "C-f" p s =
      if (DecodeRuneInString p.text).1 = RuneError then
        (true, { (Prompt p s).2 with status := str "No or erroneous rune provided" })
      else (true, { (Prompt p s).2 with current := (DecodeRuneInString p.text).1 }) := by
  simp only [doKey, String.reduceEq, if_false, if_true]
  rw [(Prompt_fields p s).1]

/-- Only the search command assigns `searchPrev`. -/
theorem doKey_searchPrev_of_ne (u : Unicode) (key : String) (p : Prompted) (s : state)
    (hs : key ≠ "C-s") : (doKey u key p s).2.searchPrev = s.searchPrev := by
  have hf : (Prompt p s).2.searchPrev = s.searchPrev := (Prompt_fields p s).2.2.2.2
  by_cases h4 : key = "M-g"
  · rw [h4]
    cases hr : ParseUint p.text with
    | error e => rw [doKey_jump_failed u p s e hr]; exact hf
    | ok n => rw [doKey_jump_parsed u p s n hr]; exact hf
  by_cases h5 : key = "C-f"
  · rw [h5, doKey_find_eq]
    by_cases hd : (DecodeRuneInString p.text).1 = RuneError
    · rw [if_pos hd]; exact hf
    · rw [if_neg hd]; exact hf
  unfold doKey
  rw [if_neg h4, if_neg hs, if_neg h5]
  split_ifs <;> rfl

/-- The search term for an empty query is the one for the query `searchPrev`. -/
theorem searchQuery_nil (s : state) : searchQuery s [] = searchQuery s s.searchPrev := by
  unfold searchQuery
  by_cases h : s.searchPrev = []
  · simp [h]
  · simp [h]

/-- C9: for every state, the search command given an empty query leaves the same state and
returns the same value as the search command given the query `searchPrev`; and `searchPrev`
is assigned only by a search that found a match: `scroll` and `refresh` keep it, and a
`doKey` that changes it is a search with a non-empty query that is stored in `searchPrev`
and whose upper-cased form occurs in the name of the new `current`. -/
theorem doKey_search_reuses_searchPrev (u : Unicode) (s : state) :
    (∀ redraws, doKey u "C-s" ⟨redraws, []⟩ s = doKey u "C-s" ⟨redraws, s.searchPrev⟩ s) ∧
    (∀ key p, (doKey u key p s).2.searchPrev = s.searchPrev ∨
      (key = "C-s" ∧ p.text ≠ [] ∧ (doKey u key p s).2.searchPrev = p.text ∧
        Contains (u.Name (doKey u key p s).2.current) (u.ToUpper p.text) = true ∧
        (doKey u key p s).2.current < s.unicodeMax)) ∧
    (scroll u s).searchPrev = s.searchPrev ∧
    (∀ sx sy, (refresh s sx sy).searchPrev = s.searchPrev) := by
  refine ⟨?_, ?_, ?_, fun _ _ => rfl⟩
  · intro redraws
    rw [doKey_search_eq, doKey_search_eq]
    simp only [searchQuery_nil s]
    rfl
  · intro key p
    have hf := Prompt_fields p s
    by_cases hs : key = "C-s"
    · rw [hs, doKey_search_eq]
      cases hres : searchLoop u (u.ToUpper (searchQuery s p.text)) s.unicodeMax
          (s.unicodeMax - wrap32 (s.current + 1)).toNat (wrap32 (s.current + 1)) with
      | none => left; exact hf.2.2.2.2
      | some c =>
        by_cases hp : p.text = []
        · left
          show searchQuery s p.text = s.searchPrev
          unfold searchQuery; rw [if_pos hp]
        · right
          have hq : searchQuery s p.text = p.text := by unfold searchQuery; rw [if_neg hp]
          obtain ⟨hc, hlt⟩ := searchLoop_some u _ _ _ _ c hres
          rw [hq] at hc
          exact ⟨rfl, hp, hq, hc, hlt⟩
    · left
      exact doKey_searchPrev_of_ne u key p s hs
  · unfold scroll
    split_ifs <;> rfl

/-! ## doKey: find a rune -/

/-- Decoding a one-byte (ASCII) encoding. -/
theorem decode1 (s0 : Fin 256) (t : GoString) (h0 : s0.val < 0x80) :
    DecodeRuneInString (s0 :: t) = ((s0.val : Int), 1) := by
  simp only [DecodeRuneInString, h0, if_true]

/-- Decoding a two-byte encoding. -/
theorem decode2 (s0 s1 : Fin 256) (t : GoString) (h0 : 0xC2 ≤ s0.val) (h0' : s0.val < 0xE0)
    (h1 : 0x80 ≤ s1.val) (h1' : s1.val ≤ 0xBF) :
    DecodeRuneInString (s0 :: s1 :: t) = ((((s0.val % 32) * 64 + s1.val % 64 : Nat) : Int), 2) := by
  unfold DecodeRuneInString
  have e1 : ¬ s0.val < 0x80 := by omega
  have e2 : ¬ (s0.val < 0xC2 ∨ 0xF4 < s0.val) := by omega
  have e3 : ¬ s0.val = 0xE0 := by omega
  have e4 : ¬ s0.val = 0xF0 := by omega
  have e5 : ¬ s0.val = 0xED := by omega
  have e6 : ¬ s0.val = 0xF4 := by omega
  simp only [e1, e2, e3, e4, e5, e6, h0', if_true, if_false, List.length_cons]
  have e7 : ¬ (t.length + 1 + 1 < 2) := by omega
  have e8 : ¬ (s1.val < 0x80 ∨ 0xBF < s1.val) := by omega
  simp only [e7, e8, if_false, le_refl, if_true]

/-- Decoding a three-byte encoding. -/
theorem decode3 (s0 s1 s2 : Fin 256) (t : GoString) (h0 : 0xE0 ≤ s0.val) (h0' : s0.val < 0xF0)
    (h1 : (if s0.val = 0xE0 then 0xA0 else 0x80) ≤ s1.val)
    (h1' : s1.val ≤ (if s0.val = 0xED then 0x9F else 0xBF))
    (h2 : 0x80 ≤ s2.val) (h2' : s2.val ≤ 0xBF) :
    DecodeRuneInString (s0 :: s1 :: s2 :: t) =
      ((((s0.val % 16) * 4096 + (s1.val % 64) * 64 + s2.val % 64 : Nat) : Int), 3) := by
  unfold DecodeRuneInString
  have e1 : ¬ s0.val < 0x80 := by omega
  have e2 : ¬ (s0.val < 0xC2 ∨ 0xF4 < s0.val) := by omega
  have e3 : ¬ s0.val < 0xE0 := by omega
  have e4 : ¬ s0.val = 0xF0 := by omega
  have e6 : ¬ s0.val = 0xF4 := by omega
  simp only [e1, e2, e3, e4, e6, h0', if_true, if_false, List.length_cons]
  have e7 : ¬ (t.length + 1 + 1 + 1 < 3) := by omega
  have e8 : ¬ (s1.val < (if s0.val = 0xE0 then 0xA0 else 0x80) ∨
      (if s0.val = 0xED then 0x9F else 0xBF) < s1.val) := by omega
  have e9 : ¬ (3 ≤ 2) := by omega
  have e10 : isCont s2 = true := by unfold isCont; simp; omega
  simp only [e7, e8, e9, e10, if_false, le_refl, if_true, Bool.not_true, Bool.false_eq_true]

/-- Decoding a four-byte encoding. -/
theorem decode4 (s0 s1 s2 s3 : Fin 256) (t : GoString) (h0 : 0xF0 ≤ s0.val) (h0' : s0.val ≤ 0xF4)
    (h1 : (if s0.val = 0xF0 then 0x90 else 0x80) ≤ s1.val)
    (h1' : s1.val ≤ (if s0.val = 0xF4 then 0x8F else 0xBF))
    (h2 : 0x80 ≤ s2.val) (h2' : s2.val ≤ 0xBF) (h3 : 0x80 ≤ s3.val) (h3' : s3.val ≤ 0xBF) :
    DecodeRuneInString (s0 :: s1 :: s2 :: s3 :: t) =
      ((((s0.val % 8) * 262144 + (s1.val % 64) * 4096 + (s2.val % 64) * 64 + s3.val % 64 : Nat)
        : Int), 4) := by
  unfold DecodeRuneInString
  have e1 : ¬ s0.val < 0x80 := by omega
  have e2 : ¬ (s0.val < 0xC2 ∨ 0xF4 < s0.val) := by omega
  have e3 : ¬ s0.val < 0xE0 := by omega
  have e3' : ¬ s0.val < 0xF0 := by omega
  have e4 : ¬ s0.val = 0xE0 := by omega
  have e6 : ¬ s0.val = 0xED := by omega
  simp only [e1, e2, e3, e3', e4, e6, if_true, if_false, List.length_cons]
  have e7 : ¬ (t.length + 1 + 1 + 1 + 1 < 4) := by omega
  have e8 : ¬ (s1.val < (if s0.val = 0xF0 then 0x90 else 0x80) ∨
      (if s0.val = 0xF4 then 0x8F else 0xBF) < s1.val) := by omega
  have e9 : ¬ (4 ≤ 2) := by omega
  have e9' : ¬ (4 ≤ 3) := by omega
  have e10 : isCont s2 = true := by unfold isCont; simp; omega
  have e11 : isCont s3 = true := by unfold isCont; simp; omega
  simp only [e7, e8, e9, e9', e10, e11, if_false, le_refl, if_true, Bool.not_true,
    Bool.false_eq_true]

/-- The value of a byte given by a number. -/
theorem ofNat_val (a : Nat) : ((Fin.ofNat a : Fin 256).val) = a % 256 := rfl

/-- Decoding inverts encoding: a string that begins with the encoding of a scalar value `r`
decodes to `r` and the width of the encoding. -/
theorem DecodeRuneInString_EncodeRune (r : Nat) (rest : GoString) (hr : isScalar r) :
    DecodeRuneInString (EncodeRune r ++ rest) = ((r : Int), (EncodeRune r).length) := by
  obtain ⟨hmax, hsur⟩ := hr
  unfold EncodeRune
  by_cases c1 : r ≤ 0x7F
  · rw [if_pos c1]
    simp only [List.singleton_append, List.length_singleton]
    rw [decode1 _ _ (by rw [ofNat_val]; omega), ofNat_val]
    have : r % 256 = r := by omega
    rw [this]
  rw [if_neg c1]
  by_cases c2 : r ≤ 0x7FF
  · rw [if_pos c2]
    simp only [List.cons_append, List.nil_append, List.length_cons, List.length_nil]
    rw [decode2 _ _ _ (by rw [ofNat_val]; omega) (by rw [ofNat_val]; omega)
      (by rw [ofNat_val]; omega) (by rw [ofNat_val]; omega)]
    simp only [ofNat_val]
    have : (192 + r / 64) % 256 % 32 * 64 + (128 + r % 64) % 256 % 64 = r := by omega
    rw [this]
  rw [if_neg c2]
  have c3 : ¬ (r > 0x10FFFF ∨ (0xD800 ≤ r ∧ r ≤ 0xDFFF)) := by omega
  rw [if_neg c3]
  by_cases c4 : r ≤ 0xFFFF
  · rw [if_pos c4]
    simp only [List.cons_append, List.nil_append, List.length_cons, List.length_nil]
    rw [decode3 _ _ _ _ (by rw [ofNat_val]; omega) (by rw [ofNat_val]; omega)
      (by simp only [ofNat_val]; split <;> omega) (by simp only [ofNat_val]; split <;> omega)
      (by rw [ofNat_val]; omega) (by rw [ofNat_val]; omega)]
    simp only [ofNat_val]
    have : (224 + r / 4096) % 256 % 16 * 4096 + (128 + r / 64 % 64) % 256 % 64 * 64
        + (128 + r % 64) % 256 % 64 = r := by omega
    rw [this]
  · rw [if_neg c4]
    simp only [List.cons_append, List.nil_append, List.length_cons, List.length_nil]
    rw [decode4 _ _ _ _ _ (by rw [ofNat_val]; omega) (by rw [ofNat_val]; omega)
      (by simp only [ofNat_val]; split <;> omega) (by simp only [ofNat_val]; split <;> omega)
      (by rw [ofNat_val]; omega) (by rw [ofNat_val]; omega)
      (by rw [ofNat_val]; omega) (by rw [ofNat_val]; omega)]
    simp only [ofNat_val]
    have : (240 + r / 262144) % 256 % 8 * 262144 + (128 + r / 4096 % 64) % 256 % 64 * 4096
        + (128 + r / 64 % 64) % 256 % 64 * 64 + (128 + r % 64) % 256 % 64 = r := by omega
    rw [this]
/-- The find command on an input that begins with the encoding of a scalar value `r` other
than U+FFFD: `current` becomes `r`, whether displayable or not, `status` is unchanged and
the command returns true. -/
theorem doKey_find_sets_current (u : Unicode) (p : Prompted) (s : state) (r : Nat)
    (rest : GoString) (hr : isScalar r) (hne : r ≠ 0xFFFD) (hp : p.text = EncodeRune r ++ rest) :
    (doKey u "C-f" p s).1 = true ∧ (doKey u "C-f" p s).2.current = r ∧
    (doKey u "C-f" p s).2.status = s.status := by
  have hd : (DecodeRuneInString p.text).1 = r := by
    rw [hp, DecodeRuneInString_EncodeRune r rest hr]
  have hne2 : ¬ (DecodeRuneInString p.text).1 = RuneError := by
    rw [hd]; unfold RuneError; omega
  rw [doKey_find_eq, if_neg hne2, hd]
  exact ⟨rfl, rfl, (Prompt_fields p s).2.2.2.1⟩

/-- C10, at the input U+FFFD: the bytes `EF BF BD` are the valid encoding of the scalar value
0xFFFD, which `utf8.DecodeRuneInString` returns with width 3; the find command takes the value
for the error sentinel `utf8.RuneError`: it leaves `current` at 0 and overwrites `status`. -/
theorem doKey_find_replacement_char :
    isScalar 0xFFFD ∧ EncodeRune 0xFFFD = [0xEF, 0xBF, 0xBD] ∧
    DecodeRuneInString [0xEF, 0xBF, 0xBD] = (0xFFFD, 3) ∧
    doKey sampleUnicode "C-f" ⟨[], [0xEF, 0xBF, 0xBD]⟩ sampleState =
      (true, { sampleState with status := str "No or erroneous rune provided" }) ∧
    (doKey sampleUnicode "C-f" ⟨[], [0xEF, 0xBF, 0xBD]⟩ sampleState).2.current ≠ 0xFFFD ∧
    (doKey sampleUnicode "C-f" ⟨[], [0xEF, 0xBF, 0xBD]⟩ sampleState).2.status
      ≠ sampleState.status :=
  ⟨by decide, by decide, by decide, by decide, by decide, by decide⟩

/-- A byte is the byte given by its own value. -/
theorem ofNat_eq_of_val (c : Fin 256) (a : Nat) (h : a = c.val) : (Fin.ofNat a : Fin 256) = c := by
  apply Fin.ext
  rw [ofNat_val, h]
  exact Nat.mod_eq_of_lt c.isLt

/-- The encoding of a rune is not empty. -/
theorem EncodeRune_ne_nil (r : Nat) : EncodeRune r ≠ [] := by
  unfold EncodeRune
  split_ifs <;> exact List.cons_ne_nil _ _

/-- Decoding yields a rune other than `RuneError` only for a string that begins with the
encoding of that rune, a scalar value. -/
theorem DecodeRuneInString_valid (s : GoString) (h : (DecodeRuneInString s).1 ≠ RuneError) :
    ∃ (r : Nat) (rest : GoString), isScalar r ∧ s = EncodeRune r ++ rest ∧
      (DecodeRuneInString s).1 = r := by
  cases s with
  | nil => exact absurd rfl h
  | cons s0 t =>
    have hs0 := s0.isLt
    by_cases c1 : s0.val < 0x80
    · refine ⟨s0.val, t, ⟨by omega, by omega⟩, ?_, ?_⟩
      · unfold EncodeRune
        rw [if_pos (by omega), ofNat_eq_of_val s0 _ rfl]
        rfl
      · rw [decode1 s0 t c1]
    by_cases c2 : s0.val < 0xC2 ∨ 0xF4 < s0.val
    · exfalso; apply h
      simp only [DecodeRuneInString, c1, c2, if_true, if_false]
    by_cases c3 : s0.val < 0xE0
    · -- two bytes
      have n1 : ¬ s0.val = 0xE0 := by omega
      have n2 : ¬ s0.val = 0xF0 := by omega
      have n3 : ¬ s0.val = 0xED := by omega
      have n4 : ¬ s0.val = 0xF4 := by omega
      cases t with
      | nil =>
        exfalso; apply h
        simp only [DecodeRuneInString, c1, c2, c3, if_true, if_false, List.length_nil]
        rfl
      | cons s1 t1 =>
        have hs1 := s1.isLt
        by_cases c4 : s1.val < 0x80 ∨ 0xBF < s1.val
        · exfalso; apply h
          simp only [DecodeRuneInString, c1, c2, c3, n1, n2, n3, n4, c4, if_true, if_false,
            List.length_cons]
          split <;> rfl
        · have hd := decode2 s0 s1 t1 (by omega) c3 (by omega) (by omega)
          refine ⟨(s0.val % 32) * 64 + s1.val % 64, t1, ⟨by omega, by omega⟩, ?_, ?_⟩
          · unfold EncodeRune
            rw [if_neg (by omega), if_pos (by omega),
              ofNat_eq_of_val s0 _ (by omega), ofNat_eq_of_val s1 _ (by omega)]
            rfl
          · rw [hd]
    by_cases c5 : s0.val < 0xF0
    · -- three bytes
      have n2 : ¬ s0.val = 0xF0 := by omega
      have n4 : ¬ s0.val = 0xF4 := by omega
      cases t with
      | nil =>
        exfalso; apply h
        simp only [DecodeRuneInString, c1, c2, c3, c5, if_true, if_false, List.length_nil]
        rfl
      | cons s1 t1 =>
        have hs1 := s1.isLt
        cases t1 with
        | nil =>
          exfalso; apply h
          simp only [DecodeRuneInString, c1, c2, c3, c5, if_true, if_false, List.length_cons,
            List.length_nil]
          rfl
        | cons s2 t2 =>
          have hs2 := s2.isLt
          by_cases c4 : s1.val < (if s0.val = 0xE0 then 0xA0 else 0x80) ∨
              (if s0.val = 0xED then 0x9F else 0xBF) < s1.val
          · exfalso; apply h
            simp only [DecodeRuneInString, c1, c2, c3, c5, n2, n4, c4, if_true, if_false,
              List.length_cons]
            split <;> rfl
          by_cases c6 : isCont s2 = true
          · have c6' : 0x80 ≤ s2.val ∧ s2.val ≤ 0xBF := by
              unfold isCont at c6; simpa using c6
            have hd := decode3 s0 s1 s2 t2 (by omega) c5 (by omega) (by omega) c6'.1 c6'.2
            have hlo : (if s0.val = 0xE0 then 0xA0 else 0x80) ≤ s1.val := by omega
            have hhi : s1.val ≤ (if s0.val = 0xED then 0x9F else 0xBF) := by omega
            refine ⟨(s0.val % 16) * 4096 + (s1.val % 64) * 64 + s2.val % 64, t2,
              ⟨by split at hlo <;> split at hhi <;> omega,
               by split at hlo <;> split at hhi <;> omega⟩, ?_, ?_⟩
            · unfold EncodeRune
              rw [if_neg (by split at hlo <;> split at hhi <;> omega),
                if_neg (by split at hlo <;> split at hhi <;> omega),
                if_neg (by split at hlo <;> split at hhi <;> omega),
                if_pos (by split at hlo <;> split at hhi <;> omega),
                ofNat_eq_of_val s0 _ (by split at hlo <;> split at hhi <;> omega),
                ofNat_eq_of_val s1 _ (by split at hlo <;> split at hhi <;> omega),
                ofNat_eq_of_val s2 _ (by omega)]
              rfl
            · rw [hd]
          · exfalso; apply h
            have c6' : isCont s2 = false := by simpa using c6
            simp only [DecodeRuneInString, c1, c2, c3, c5, n2, n4, c4, c6', if_true, if_false,
              List.length_cons, Bool.not_false]
            split <;> rfl
    -- four bytes
    have n1 : ¬ s0.val = 0xE0 := by omega
    have n3 : ¬ s0.val = 0xED := by omega
    cases t with
    | nil =>
      exfalso; apply h
      simp only [DecodeRuneInString, c1, c2, c3, c5, if_true, if_false, List.length_nil]
      rfl
    | cons s1 t1 =>
      have hs1 := s1.isLt
      cases t1 with
      | nil =>
        exfalso; apply h
        simp only [DecodeRuneInString, c1, c2, c3, c5, if_true, if_false, List.length_cons,
          List.length_nil]
        rfl
      | cons s2 t2 =>
        have hs2 := s2.isLt
        cases t2 with
        | nil =>
          exfalso; apply h
          simp only [DecodeRuneInString, c1, c2, c3, c5, if_true, if_false, List.length_cons,
            List.length_nil]
          rfl
        | cons s3 t3 =>
          have hs3 := s3.isLt
          by_cases c4 : s1.val < (if s0.val = 0xF0 then 0x90 else 0x80) ∨
              (if s0.val = 0xF4 then 0x8F else 0xBF) < s1.val
          · exfalso; apply h
            simp only [DecodeRuneInString, c1, c2, c3, c5, n1, n3, c4, if_true, if_false,
              List.length_cons]
            split <;> rfl
          by_cases c6 : isCont s2 = true
          · by_cases c7 : isCont s3 = true
            · have c6' : 0x80 ≤ s2.val ∧ s2.val ≤ 0xBF := by
                unfold isCont at c6; simpa using c6
              have c7' : 0x80 ≤ s3.val ∧ s3.val ≤ 0xBF := by
                unfold isCont at c7; simpa using c7
              have hd := decode4 s0 s1 s2 s3 t3 (by omega) (by omega) (by omega) (by omega)
                c6'.1 c6'.2 c7'.1 c7'.2
              have hlo : (if s0.val = 0xF0 then 0x90 else 0x80) ≤ s1.val := by omega
              have hhi : s1.val ≤ (if s0.val = 0xF4 then 0x8F else 0xBF) := by omega
              refine ⟨(s0.val % 8) * 262144 + (s1.val % 64) * 4096 + (s2.val % 64) * 64
                  + s3.val % 64, t3,
                ⟨by split at hlo <;> split at hhi <;> omega,
                 by split at hlo <;> split at hhi <;> omega⟩, ?_, ?_⟩
              · unfold EncodeRune
                rw [if_neg (by split at hlo <;> split at hhi <;> omega),
                  if_neg (by split at hlo <;> split at hhi <;> omega),
                  if_neg (by split at hlo <;> split at hhi <;> omega),
                  if_neg (by split at hlo <;> split at hhi <;> omega),
                  ofNat_eq_of_val s0 _ (by split at hlo <;> split at hhi <;> omega),
                  ofNat_eq_of_val s1 _ (by split at hlo <;> split at hhi <;> omega),
                  ofNat_eq_of_val s2 _ (by split at hlo <;> split at hhi <;> omega),
                  ofNat_eq_of_val s3 _ (by omega)]
                rfl
              · rw [hd]
            · exfalso; apply h
              have c7' : isCont s3 = false := by simpa using c7
              simp only [DecodeRuneInString, c1, c2, c3, c5, n1, n3, c4, c6, c7', if_true,
                if_false, List.length_cons, Bool.not_false, Bool.not_true, Bool.false_eq_true]
              split <;> rfl
          · exfalso; apply h
            have c6' : isCont s2 = false := by simpa using c6
            simp only [DecodeRuneInString, c1, c2, c3, c5, n1, n3, c4, c6', if_true, if_false,
              List.length_cons, Bool.not_false]
            split <;> rfl

/-- C11, at a terminal resized while the prompt is open: the input is empty, and the redraw
callback of the prompt (`refresh`) has recorded the new terminal height in `screeny`, a
field other than `status`. -/
theorem doKey_find_error_resized :
    (⟨[(100, 40)], []⟩ : Prompted).text = [] ∧
    (doKey sampleUnicode "C-f" ⟨[(100, 40)], []⟩ sampleState).2.screeny ≠ sampleState.screeny :=
  ⟨rfl, by decide⟩

/-- C11, amended: for every state and every prompt input that is empty or does not begin with
a validly encoded character, the find command returns true, sets `status` to the non-empty
message `No or erroneous rune provided` and leaves `current`, `unicodeMax` and
`searchPrev` unchanged; `screenx` and `screeny` are as the redraws of the prompt left them,
unchanged when every redraw saw the terminal size the state already recorded. -/
theorem doKey_find_error (u : Unicode) (p : Prompted) (s : state)
    (hp : p.text = [] ∨ ¬ ∃ (r : Nat) (rest : GoString), isScalar r ∧ p.text = EncodeRune r ++ rest) :
    doKey u "C-f" p s =
      (true, { (Prompt p s).2 with status := str "No or erroneous rune provided" }) ∧
    (doKey u "C-f" p s).1 = true ∧
    (doKey u "C-f" p s).2.status = str "No or erroneous rune provided" ∧
    (doKey u "C-f" p s).2.status ≠ [] ∧
    (doKey u "C-f" p s).2.current = s.current ∧
    (doKey u "C-f" p s).2.unicodeMax = s.unicodeMax ∧
    (doKey u "C-f" p s).2.searchPrev = s.searchPrev ∧
    ((∀ sz ∈ p.redraws, sz = (s.screenx, s.screeny)) →
      doKey u "C-f" p s = (true, { s with status := str "No or erroneous rune provided" })) := by
  have hf := Prompt_fields p s
  have herr : (DecodeRuneInString p.text).1 = RuneError := by
    by_contra hne
    obtain ⟨r, rest, hr, heq, _⟩ := DecodeRuneInString_valid p.text hne
    rcases hp with hnil | hno
    · rw [hnil] at heq
      exact EncodeRune_ne_nil r (List.append_eq_nil.mp heq.symm).1
    · exact hno ⟨r, rest, hr, heq⟩
  have hd : doKey u "C-f" p s =
      (true, { (Prompt p s).2 with status := str "No or erroneous rune provided" }) := by
    rw [doKey_find_eq, if_pos herr]
  have hmsg : str "No or erroneous rune provided" ≠ [] := by decide
  rw [hd]
  refine ⟨rfl, rfl, rfl, hmsg, hf.2.1, hf.2.2.1, hf.2.2.2.2, ?_⟩
  intro hsz
  rw [Prompt_same_size p s hsz]

/-- The empty input on the sample state, with a redraw at a new terminal size. -/
theorem doKey_find_error_witness :
    ((⟨[(100, 40)], []⟩ : Prompted).text = [] ∨
      ¬ ∃ (r : Nat) (rest : GoString), isScalar r ∧
        (⟨[(100, 40)], []⟩ : Prompted).text = EncodeRune r ++ rest) ∧
    (doKey sampleUnicode "C-f" ⟨[(100, 40)], []⟩ sampleState).2.status
      = str "No or erroneous rune provided" :=
  ⟨Or.inl rfl,
    (doKey_find_error sampleUnicode ⟨[(100, 40)], []⟩ sampleState (Or.inl rfl)).2.2.1⟩

/-! ## doKey: stepping and paging -/

/-- What the loop of the step-up command computes when its fuel covers the distance down to
0: it stops at the first code point from `cur` down that is graphic or has reached 0. -/
theorem stepUpLoop_spec (u : Unicode) :
    ∀ (fuel : Nat) (cur : Int), cur ≤ MaxInt32 → cur.toNat ≤ fuel →
      stepUpLoop u fuel cur ≤ cur ∧
      (0 < cur → 0 ≤ stepUpLoop u fuel cur) ∧
      (cur ≤ 0 → stepUpLoop u fuel cur = cur) ∧
      (u.IsGraphic (stepUpLoop u fuel cur) = true ∨ stepUpLoop u fuel cur ≤ 0) ∧
      (∀ x, stepUpLoop u fuel cur < x → x ≤ cur → u.IsGraphic x = false) := by
  intro fuel
  induction fuel with
  | zero =>
    intro cur _ hfuel
    have hle : cur ≤ 0 := by omega
    rw [stepUpLoop]
    exact ⟨le_refl _, fun h => by omega, fun _ => rfl, Or.inr hle, fun x h1 h2 => by omega⟩
  | succ n ih =>
    intro cur hmax hfuel
    rw [stepUpLoop]
    by_cases hc : (!u.IsGraphic cur && decide (cur > 0)) = true
    · rw [if_pos hc]
      simp only [Bool.and_eq_true, Bool.not_eq_true', decide_eq_true_eq] at hc
      obtain ⟨hng, hpos⟩ := hc
      have hw : wrap32 (cur - 1) = cur - 1 := by
        apply wrap32_of_isInt32
        unfold isInt32 MinInt32
        unfold MaxInt32 at hmax ⊢
        omega
      rw [hw]
      obtain ⟨h1, h2, h3, h4, h5⟩ := ih (cur - 1) (by omega) (by omega)
      refine ⟨by omega, ?_, fun h => by omega, h4, ?_⟩
      · intro _
        by_cases h0 : 0 < cur - 1
        · exact h2 h0
        · rw [h3 (by omega)]; omega
      · intro x hx1 hx2
        by_cases hx : x = cur
        · rw [hx]; exact hng
        · exact h5 x hx1 (by omega)
    · rw [if_neg hc]
      refine ⟨le_refl _, fun h => by omega, fun _ => rfl, ?_, fun x h1 h2 => by omega⟩
      simp only [Bool.and_eq_true, Bool.not_eq_true', decide_eq_true_eq, not_and, not_lt] at hc
      by_cases hg : u.IsGraphic cur = true
      · exact Or.inl hg
      · exact Or.inr (hc (by simpa using hg))

/-- The step-up command in terms of its loop. -/
theorem doKey_stepUp_eq (u : Unicode) (key : String) (p : Prompted) (s : state)
    (hk : key = "UP" ∨ key = "C-p") :
    doKey u key p s =
      (true,
        { s with current := stepUpLoop u (wrap32 (s.current - 1)).toNat (wrap32 (s.current - 1)) })
      := by
  rcases hk with hk | hk <;> rw [hk] <;>
    simp only [doKey, String.reduceEq, if_false, if_true, or_true, true_or]

/-- The step-down command. -/
theorem doKey_stepDown_eq (u : Unicode) (key : String) (p : Prompted) (s : state)
    (hk : key = "DOWN" ∨ key = "C-n") :
    doKey u key p s = (true, { s with current := wrap32 (s.current + 1) }) := by
  rcases hk with hk | hk <;> rw [hk] <;>
    simp only [doKey, String.reduceEq, if_false, if_true, or_true, true_or, or_self]

/-- The page-down command. -/
theorem doKey_pageDown_eq (u : Unicode) (key : String) (p : Prompted) (s : state)
    (hk : key = "NEXT" ∨ key = "C-v") :
    doKey u key p s = (true, { s with current := wrap32 (s.current + wrap32 s.screeny) }) := by
  rcases hk with hk | hk <;> rw [hk] <;>
    simp only [doKey, String.reduceEq, if_false, if_true, or_true, true_or, or_self]

/-- The page-up command. -/
theorem doKey_pageUp_eq (u : Unicode) (key : String) (p : Prompted) (s : state)
    (hk : key = "PRIOR" ∨ key = "C-z" ∨ key = "M-v") :
    doKey u key p s = (true, { s with current := wrap32 (s.current - wrap32 s.screeny) }) := by
  rcases hk with hk | hk | hk <;> rw [hk] <;>
    simp only [doKey, String.reduceEq, if_false, if_true, or_true, true_or, or_self]

/-- After `scroll` the cursor is within `[0, unicodeMax]`, and `unicodeMax` is as before. -/
theorem scroll_range (u : Unicode) (s : state) (hv : isInt32 s.unicodeMax)
    (h0 : 0 ≤ s.unicodeMax) :
    0 ≤ (scroll u s).current ∧ (scroll u s).current ≤ s.unicodeMax := by
  unfold scroll
  by_cases h1 : s.current > s.unicodeMax
  · rw [if_pos h1]
    exact ⟨h0, le_refl _⟩
  · rw [if_neg h1]
    by_cases h2 : s.current < 0
    · simp only [if_pos h2]
      obtain ⟨a, b, _⟩ := findNextPrintable_spec u { s with current := 0 } 0 hv.2
        (by unfold MinInt32; omega)
      exact ⟨a, b h0⟩
    · simp only [if_neg h2]
      obtain ⟨a, b, _⟩ := findNextPrintable_spec u s s.current hv.2
        (by unfold MinInt32; omega)
      exact ⟨by omega, b (by omega)⟩

/-- C12, at `current = 0`: the step-up command decrements before its loop tests
`s.current > 0`, so it leaves `current` at -1, below 0. -/
theorem doKey_stepUp_from_zero :
    0 ≤ sampleState.current ∧ sampleState.current ≤ sampleState.unicodeMax ∧
    (doKey sampleUnicode "UP" ⟨[], []⟩ sampleState).2.current = -1 ∧
    (doKey sampleUnicode "C-p" ⟨[], []⟩ sampleState).2.current = -1 :=
  ⟨by decide, by decide, by decide, by decide⟩

/-- C12, amended: for every state with `0 <= current <= unicodeMax`, the step-up command
leaves `current >= -1`, and `current >= 0` when it started from `current >= 1`; the
`scroll` of the next frame brings `current` back to `0 <= current <= unicodeMax`. -/
theorem doKey_stepUp_lower_bound (u : Unicode) (key : String) (p : Prompted) (s : state)
    (hk : key = "UP" ∨ key = "C-p") (hv : isInt32 s.unicodeMax)
    (h0 : 0 ≤ s.current) (h1 : s.current ≤ s.unicodeMax) :
    -1 ≤ (doKey u key p s).2.current ∧
    (1 ≤ s.current → 0 ≤ (doKey u key p s).2.current) ∧
    (s.current = 0 → (doKey u key p s).2.current = -1) ∧
    0 ≤ (scroll u (doKey u key p s).2).current ∧
    (scroll u (doKey u key p s).2).current ≤ s.unicodeMax := by
  have hmax := hv.2
  have hw : wrap32 (s.current - 1) = s.current - 1 := by
    apply wrap32_of_isInt32
    unfold isInt32 MinInt32
    unfold MaxInt32 at hmax ⊢
    omega
  obtain ⟨a, b, c, _, _⟩ := stepUpLoop_spec u (s.current - 1).toNat (s.current - 1)
    (by omega) (le_refl _)
  have hsc := scroll_range u
    { s with current := stepUpLoop u (s.current - 1).toNat (s.current - 1) } hv (h0.trans h1)
  rw [doKey_stepUp_eq u key p s hk, hw]
  refine ⟨?_, ?_, ?_, hsc.1, hsc.2⟩
  · show -1 ≤ stepUpLoop u (s.current - 1).toNat (s.current - 1)
    by_cases hp : 0 < s.current - 1
    · have := b hp; omega
    · rw [c (by omega)]; omega
  · intro h
    show 0 ≤ stepUpLoop u (s.current - 1).toNat (s.current - 1)
    by_cases hp : 0 < s.current - 1
    · exact b hp
    · rw [c (by omega)]; omega
  · intro h
    show stepUpLoop u (s.current - 1).toNat (s.current - 1) = -1
    rw [c (by omega)]; omega

/-- The sample state with the cursor at 0: the hypotheses of the amended C12 hold, the
step-up command leaves -1 and `scroll` restores a cursor in range. -/
theorem doKey_stepUp_lower_bound_witness :
    ("UP" = "UP" ∨ "UP" = "C-p") ∧ isInt32 sampleState.unicodeMax ∧
    0 ≤ sampleState.current ∧ sampleState.current ≤ sampleState.unicodeMax ∧
    0 ≤ (scroll sampleUnicode (doKey sampleUnicode "UP" ⟨[], []⟩ sampleState).2).current :=
  ⟨Or.inl rfl, by decide, by decide, by decide,
    (doKey_stepUp_lower_bound sampleUnicode "UP" ⟨[], []⟩ sampleState (Or.inl rfl) (by decide)
      (by decide) (by decide)).2.2.2.1⟩

/-- C19: for every state with `current >= 1`, the step-up command returns true and changes
only `current`; its loop ends (at the new `current` the loop condition is false); the new
`current` is in `[0, old current)`, no code point between it and the old `current` is
displayable, and it is displayable itself when some code point in `[0, old current)` is,
so it is the greatest displayable code point below the old `current`, and 0 when there is
none. -/
theorem doKey_stepUp_greatest (u : Unicode) (key : String) (p : Prompted) (s : state)
    (hk : key = "UP" ∨ key = "C-p") (hv : isInt32 s.current) (h1 : 1 ≤ s.current) :
    doKey u key p s = (true, { s with current := (doKey u key p s).2.current }) ∧
    (!u.IsGraphic (doKey u key p s).2.current && decide ((doKey u key p s).2.current > 0))
      = false ∧
    0 ≤ (doKey u key p s).2.current ∧
    (doKey u key p s).2.current < s.current ∧
    (∀ x, (doKey u key p s).2.current < x → x < s.current → u.IsGraphic x = false) ∧
    ((∃ g, 0 ≤ g ∧ g < s.current ∧ u.IsGraphic g = true) →
      u.IsGraphic (doKey u key p s).2.current = true) ∧
    ((∀ g, 0 ≤ g → g < s.current → u.IsGraphic g = false) →
      (doKey u key p s).2.current = 0) := by
  have hmax := hv.2
  have hw : wrap32 (s.current - 1) = s.current - 1 := by
    apply wrap32_of_isInt32
    unfold isInt32 MinInt32
    unfold MaxInt32 at hmax ⊢
    omega
  obtain ⟨a, b, c, d, e⟩ := stepUpLoop_spec u (s.current - 1).toNat (s.current - 1)
    (by omega) (le_refl _)
  have hr0 : 0 ≤ stepUpLoop u (s.current - 1).toNat (s.current - 1) := by
    by_cases hp : 0 < s.current - 1
    · exact b hp
    · rw [c (by omega)]; omega
  rw [doKey_stepUp_eq u key p s hk, hw]
  show _ ∧ (!u.IsGraphic (stepUpLoop u (s.current - 1).toNat (s.current - 1)) &&
      decide (stepUpLoop u (s.current - 1).toNat (s.current - 1) > 0)) = false ∧
    0 ≤ stepUpLoop u (s.current - 1).toNat (s.current - 1) ∧
    stepUpLoop u (s.current - 1).toNat (s.current - 1) < s.current ∧
    (∀ x, stepUpLoop u (s.current - 1).toNat (s.current - 1) < x → x < s.current →
      u.IsGraphic x = false) ∧
    ((∃ g, 0 ≤ g ∧ g < s.current ∧ u.IsGraphic g = true) →
      u.IsGraphic (stepUpLoop u (s.current - 1).toNat (s.current - 1)) = true) ∧
    ((∀ g, 0 ≤ g → g < s.current → u.IsGraphic g = false) →
      stepUpLoop u (s.current - 1).toNat (s.current - 1) = 0)
  generalize stepUpLoop u (s.current - 1).toNat (s.current - 1) = r at a b c d e hr0 ⊢
  refine ⟨rfl, ?_, hr0, by omega, fun x hx1 hx2 => e x hx1 (by omega), ?_, ?_⟩
  · rcases d with hg | hle
    · simp [hg]
    · have : ¬ r > 0 := by omega
      simp [this]
  · rintro ⟨g, hg0, hg1, hgg⟩
    rcases d with hg | hle
    · exact hg
    · have hr : r = 0 := by omega
      by_cases hgz : g = 0
      · rw [hr, ← hgz]; exact hgg
      · have := e g (by omega) (by omega)
        rw [this] at hgg
        exact Bool.noConfusion hgg
  · intro hall
    rcases d with hg | hle
    · have := hall r hr0 (by omega)
      rw [this] at hg
      exact Bool.noConfusion hg
    · omega

/-- The sample state with the cursor on `A` (65): step-up lands on `@` (64). -/
theorem doKey_stepUp_greatest_witness :
    ("UP" = "UP" ∨ "UP" = "C-p") ∧
    isInt32 ({ sampleState with current := 65 } : state).current ∧
    1 ≤ ({ sampleState with current := 65 } : state).current ∧
    (doKey sampleUnicode "UP" ⟨[], []⟩ { sampleState with current := 65 }).2.current
      < ({ sampleState with current := 65 } : state).current :=
  ⟨Or.inl rfl, by decide, by decide,
    (doKey_stepUp_greatest sampleUnicode "UP" ⟨[], []⟩ { sampleState with current := 65 }
      (Or.inl rfl) (by decide) (by decide)).2.2.2.1⟩

/-- C18: for every state whose `unicodeMax` is a displayable code point and with
`0 <= current <= unicodeMax`, the step-down command followed by `scroll` leaves a
displayable `current`: when the old `current` is below `unicodeMax` it is the smallest
displayable code point strictly greater than the old `current`, and when the old `current`
is `unicodeMax` it is `unicodeMax`. -/
theorem doKey_stepDown_scroll (u : Unicode) (key : String) (p : Prompted) (s : state)
    (hk : key = "DOWN" ∨ key = "C-n")
    (hcp : isCodePoint s.unicodeMax) (hg : u.IsGraphic s.unicodeMax = true)
    (h0 : 0 ≤ s.current) (h1 : s.current ≤ s.unicodeMax) :
    u.IsGraphic (scroll u (doKey u key p s).2).current = true ∧
    (s.current < s.unicodeMax →
      s.current < (scroll u (doKey u key p s).2).current ∧
      (scroll u (doKey u key p s).2).current ≤ s.unicodeMax ∧
      ∀ x, s.current < x → x < (scroll u (doKey u key p s).2).current →
        u.IsGraphic x = false) ∧
    (s.current = s.unicodeMax → (scroll u (doKey u key p s).2).current = s.unicodeMax) := by
  have hi := isInt32_of_isCodePoint _ hcp
  have hmax := hi.2
  have hw : wrap32 (s.current + 1) = s.current + 1 := by
    apply wrap32_of_isInt32
    have := hcp.2
    unfold MaxRune at this
    unfold isInt32 MinInt32 MaxInt32
    omega
  rw [doKey_stepDown_eq u key p s hk, hw]
  show u.IsGraphic (scroll u { s with current := s.current + 1 }).current = true ∧
    (s.current < s.unicodeMax →
      s.current < (scroll u { s with current := s.current + 1 }).current ∧
      (scroll u { s with current := s.current + 1 }).current ≤ s.unicodeMax ∧
      ∀ x, s.current < x → x < (scroll u { s with current := s.current + 1 }).current →
        u.IsGraphic x = false) ∧
    (s.current = s.unicodeMax →
      (scroll u { s with current := s.current + 1 }).current = s.unicodeMax)
  by_cases hlt : s.current < s.unicodeMax
  · have hsc : (scroll u { s with current := s.current + 1 }).current
        = findNextPrintable u { s with current := s.current + 1 } (s.current + 1) := by
      unfold scroll
      have e1 : ¬ (s.current + 1 > s.unicodeMax) := by omega
      have e2 : ¬ (s.current + 1 < 0) := by omega
      simp only [e1, e2, if_false]
    rw [hsc]
    obtain ⟨a, b, c, d, _⟩ := findNextPrintable_spec u { s with current := s.current + 1 }
      (s.current + 1) hmax (by unfold MinInt32; omega)
    have hle := b (show s.current + 1 ≤ s.unicodeMax by omega)
    refine ⟨?_, fun _ => ⟨by omega, hle, fun x hx1 hx2 => d x (by omega) hx2⟩, fun h => by omega⟩
    by_cases hl : findNextPrintable u { s with current := s.current + 1 } (s.current + 1)
        < s.unicodeMax
    · exact c hl
    · have heq : findNextPrintable u { s with current := s.current + 1 } (s.current + 1)
          = s.unicodeMax := le_antisymm hle (not_lt.mp hl)
      rw [heq]; exact hg
  · have hsc : (scroll u { s with current := s.current + 1 }).current = s.unicodeMax := by
      unfold scroll
      have e1 : s.current + 1 > s.unicodeMax := by omega
      simp only [e1, if_true]
    rw [hsc]
    exact ⟨hg, fun h => absurd h hlt, fun _ => rfl⟩

/-- The sample state with the cursor on `A` (65): step-down then `scroll` lands on `B`. -/
theorem doKey_stepDown_scroll_witness :
    ("DOWN" = "DOWN" ∨ "DOWN" = "C-n") ∧
    isCodePoint ({ sampleState with current := 65 } : state).unicodeMax ∧
    sampleUnicode.IsGraphic ({ sampleState with current := 65 } : state).unicodeMax = true ∧
    0 ≤ ({ sampleState with current := 65 } : state).current ∧
    ({ sampleState with current := 65 } : state).current
      ≤ ({ sampleState with current := 65 } : state).unicodeMax ∧
    sampleUnicode.IsGraphic (scroll sampleUnicode
      (doKey sampleUnicode "DOWN" ⟨[], []⟩ { sampleState with current := 65 }).2).current = true :=
  ⟨Or.inl rfl, by decide, by decide, by decide, by decide,
    (doKey_stepDown_scroll sampleUnicode "DOWN" ⟨[], []⟩ { sampleState with current := 65 }
      (Or.inl rfl) (by decide) (by decide) (by decide) (by decide)).1⟩

/-! ## refresh: the rows of a frame -/

/-- The listing loop of `refresh` lists as many code points as it has rows. -/
theorem refreshRows_length (u : Unicode) (s : state) :
    ∀ (n : Nat) (ru : Int), (refreshRows u s n ru).length = n := by
  intro n
  induction n with
  | zero => intro ru; rfl
  | succ k ih =>
    intro ru
    rw [refreshRows]
    simp only [List.length_cons, ih]

/-- What the listing loop of `refresh` lists, as long as the scan stays within `int32`:
code points from `ru` on, strictly increasing, each below `unicodeMax` displayable, with no
displayable code point left out up to the last one listed. -/
theorem refreshRows_spec (u : Unicode) (s : state) (hmax : s.unicodeMax ≤ MaxInt32) :
    ∀ (n : Nat) (ru : Int), MinInt32 ≤ ru → ru + n ≤ MaxInt32 → s.unicodeMax + n ≤ MaxInt32 →
      (∀ r ∈ refreshRows u s n ru, ru ≤ r) ∧
      List.Pairwise (fun a b => a < b) (refreshRows u s n ru) ∧
      (∀ r ∈ refreshRows u s n ru, r < s.unicodeMax → u.IsGraphic r = true) ∧
      (∀ x, ru ≤ x → (∃ b ∈ refreshRows u s n ru, x ≤ b) → u.IsGraphic x = true →
        x ∈ refreshRows u s n ru) := by
  intro n
  induction n with
  | zero =>
    intro ru _ _ _
    rw [refreshRows]
    refine ⟨fun r hr => ?_, List.Pairwise.nil, fun r hr => ?_, ?_⟩
    · exact absurd hr (List.not_mem_nil r)
    · exact absurd hr (List.not_mem_nil r)
    · rintro x _ ⟨b, hb, _⟩ _
      exact absurd hb (List.not_mem_nil b)
  | succ k ih =>
    intro ru hmin hru hmx
    rw [refreshRows]
    obtain ⟨f1, f2, f3, f4, f5⟩ := findNextPrintable_spec u s ru hmax hmin
    have hfle : findNextPrintable u s ru + 1 + k ≤ MaxInt32 := by
      by_cases hle : ru ≤ s.unicodeMax
      · have := f2 hle
        push_cast at hmx
        omega
      · rw [f5 (by omega)]
        push_cast at hru
        omega
    have hw : wrap32 (findNextPrintable u s ru + 1) = findNextPrintable u s ru + 1 := by
      apply wrap32_of_isInt32
      unfold isInt32
      unfold MinInt32 at hmin ⊢
      omega
    obtain ⟨g1, g2, g3, g5⟩ := ih (findNextPrintable u s ru + 1)
      (by unfold MinInt32 at hmin ⊢; omega) hfle (by push_cast at hmx; omega)
    simp only [hw]
    refine ⟨?_, ?_, ?_, ?_⟩
    · intro r hr
      rcases List.mem_cons.mp hr with h | h
      · rw [h]; exact f1
      · have := g1 r h; omega
    · refine List.Pairwise.cons ?_ g2
      intro b hb
      have := g1 b hb
      omega
    · intro r hr hlt
      rcases List.mem_cons.mp hr with h | h
      · rw [h] at hlt ⊢; exact f3 hlt
      · exact g3 r h hlt
    · rintro x hx ⟨b, hb, hxb⟩ hgx
      by_cases hlt : x < findNextPrintable u s ru
      · have := f4 x hx hlt
        rw [this] at hgx
        exact Bool.noConfusion hgx
      · by_cases heq : x = findNextPrintable u s ru
        · rw [heq]; exact List.mem_cons_self _ _
        · apply List.mem_cons_of_mem
          apply g5 x (by omega) ?_ hgx
          rcases List.mem_cons.mp hb with h | h
          · omega
          · exact ⟨b, h, hxb⟩

/-- C14: for every state with `current` displayable and `0 <= current <= unicodeMax`, and
every terminal height `sy` (the frame lists `sy - 2` rows; the scan must stay within
`int32`, which `unicodeMax + (sy - 2) <= MaxInt32` ensures), the code points listed by one
frame of `refresh` start at `current`, are strictly increasing, and leave out no displayable
code point between two listed ones. -/
theorem refreshListed_increasing (u : Unicode) (s : state) (sy : Int)
    (hg : u.IsGraphic s.current = true) (h0 : 0 ≤ s.current) (h1 : s.current ≤ s.unicodeMax)
    (hn : s.unicodeMax + (sy - 2) ≤ MaxInt32) :
    (refreshListed u s sy).length = (sy - 2).toNat ∧
    (2 < sy → (refreshListed u s sy).head? = some s.current) ∧
    List.Pairwise (fun a b => a < b) (refreshListed u s sy) ∧
    (∀ a ∈ refreshListed u s sy, ∀ b ∈ refreshListed u s sy, ∀ x, a ≤ x → x ≤ b →
      u.IsGraphic x = true → x ∈ refreshListed u s sy) := by
  unfold refreshListed
  by_cases hsy : 2 < sy
  · have hmax : s.unicodeMax ≤ MaxInt32 := by omega
    have hcast : (((sy - 2).toNat : Nat) : Int) = sy - 2 := Int.toNat_of_nonneg (by omega)
    obtain ⟨g1, g2, _, g5⟩ := refreshRows_spec u s hmax (sy - 2).toNat s.current
      (by unfold MinInt32; omega) (by rw [hcast]; omega) (by rw [hcast]; omega)
    refine ⟨refreshRows_length u s _ _, fun _ => ?_, g2, ?_⟩
    · obtain ⟨k, hk⟩ : ∃ k, (sy - 2).toNat = k + 1 := ⟨(sy - 2).toNat - 1, by omega⟩
      rw [hk, refreshRows]
      simp only [List.head?_cons]
      rw [findNextPrintable_of_graphic u s s.current hg]
    · intro a ha b hb x hax hxb hgx
      exact g5 x (by have := g1 a ha; omega) ⟨b, hb, hxb⟩ hgx
  · have hz : (sy - 2).toNat = 0 := by omega
    rw [hz, refreshRows]
    refine ⟨rfl, fun h => absurd h hsy, List.Pairwise.nil, ?_⟩
    intro a ha
    exact absurd ha (List.not_mem_nil a)

/-- The sample state with the cursor on `A` (65) and a terminal of height 6: the four rows
are `A`, `B`, `C`, `D`. -/
theorem refreshListed_increasing_witness :
    sampleUnicode.IsGraphic ({ sampleState with current := 65 } : state).current = true ∧
    0 ≤ ({ sampleState with current := 65 } : state).current ∧
    ({ sampleState with current := 65 } : state).current
      ≤ ({ sampleState with current := 65 } : state).unicodeMax ∧
    ({ sampleState with current := 65 } : state).unicodeMax + (6 - 2) ≤ MaxInt32 ∧
    refreshListed sampleUnicode { sampleState with current := 65 } 6 = [65, 66, 67, 68] ∧
    List.Pairwise (fun a b => a < b)
      (refreshListed sampleUnicode { sampleState with current := 65 } 6) :=
  ⟨by decide, by decide, by decide, by decide, by decide,
    (refreshListed_increasing sampleUnicode { sampleState with current := 65 } 6 (by decide)
      (by decide) (by decide) (by decide)).2.2.1⟩

/-- Every code point listed by one frame of `refresh` that is not above `unicodeMax` is
displayable and not below `current`, when `unicodeMax` is displayable and the scan stays
within `int32`. -/
theorem refreshListed_in_range_displayable (u : Unicode) (s : state) (sy : Int)
    (hgm : u.IsGraphic s.unicodeMax = true) (h0 : 0 ≤ s.current)
    (hn : s.unicodeMax + (sy - 2) ≤ MaxInt32) (hc : s.current + (sy - 2) ≤ MaxInt32) :
    ∀ r ∈ refreshListed u s sy, s.current ≤ r ∧ (r ≤ s.unicodeMax → u.IsGraphic r = true) := by
  unfold refreshListed
  by_cases hsy : 2 < sy
  · have hmax : s.unicodeMax ≤ MaxInt32 := by omega
    have hcast : (((sy - 2).toNat : Nat) : Int) = sy - 2 := Int.toNat_of_nonneg (by omega)
    obtain ⟨g1, _, g3, _⟩ := refreshRows_spec u s hmax (sy - 2).toNat s.current
      (by unfold MinInt32; omega) (by rw [hcast]; omega) (by rw [hcast]; omega)
    intro r hr
    refine ⟨g1 r hr, fun hle => ?_⟩
    by_cases hlt : r < s.unicodeMax
    · exact g3 r hr hlt
    · have : r = s.unicodeMax := by omega
      rw [this]; exact hgm
  · have hz : (sy - 2).toNat = 0 := by omega
    rw [hz, refreshRows]
    intro r hr
    exact absurd hr (List.not_mem_nil r)

/-- C15, at the end of the range: on the sample table with `current = unicodeMax = 126` and a
terminal of height 5 (three rows), the frame lists 126, 127 and 128; the last two are above
`unicodeMax` and not displayable. -/
theorem refreshListed_past_unicodeMax :
    sampleUnicode.IsGraphic ({ sampleState with current := 126 } : state).unicodeMax = true ∧
    0 ≤ ({ sampleState with current := 126 } : state).current ∧
    ({ sampleState with current := 126 } : state).current
      ≤ ({ sampleState with current := 126 } : state).unicodeMax ∧
    refreshListed sampleUnicode { sampleState with current := 126 } 5 = [126, 127, 128] ∧
    ({ sampleState with current := 126 } : state).unicodeMax < 127 ∧
    sampleUnicode.IsGraphic 127 = false ∧ sampleUnicode.IsGraphic 128 = false :=
  ⟨by decide, by decide, by decide, by decide, by decide, by decide, by decide⟩

/-- C16: for every state whose `unicodeMax` is a code point and every `c` with
`0 <= c <= unicodeMax`, `findNextPrintable` is idempotent:
`findNextPrintable(s, findNextPrintable(s, c)) = findNextPrintable(s, c)`; this holds
whether or not `unicodeMax` is displayable. -/
theorem findNextPrintable_idempotent (u : Unicode) (s : state) (c : Int)
    (hcp : isCodePoint s.unicodeMax) (h0 : 0 ≤ c) (hc : c ≤ s.unicodeMax) :
    findNextPrintable u s (findNextPrintable u s c) = findNextPrintable u s c := by
  have hmax : s.unicodeMax ≤ MaxInt32 := (isInt32_of_isCodePoint _ hcp).2
  obtain ⟨_, f2, f3, _, _⟩ := findNextPrintable_spec u s c hmax (by unfold MinInt32; omega)
  have hle := f2 hc
  by_cases hlt : findNextPrintable u s c < s.unicodeMax
  · exact findNextPrintable_of_graphic u s _ (f3 hlt)
  · have hmin : MinInt32 ≤ findNextPrintable u s c := by
      have := hcp.1
      unfold MinInt32
      omega
    exact (findNextPrintable_spec u s (findNextPrintable u s c) hmax hmin).2.2.2.2 (by omega)

/-- The sample table at `c = 0`: the hypotheses of C16 hold and its conclusion follows. -/
theorem findNextPrintable_idempotent_witness :
    isCodePoint sampleState.unicodeMax ∧ (0 : Int) ≤ 0 ∧ (0 : Int) ≤ sampleState.unicodeMax ∧
    findNextPrintable sampleUnicode sampleState (findNextPrintable sampleUnicode sampleState 0)
      = findNextPrintable sampleUnicode sampleState 0 :=
  ⟨by decide, by decide, by decide,
    findNextPrintable_idempotent sampleUnicode sampleState 0 (by decide) (by decide) (by decide)⟩

/-- C13, at terminal height 22: the frame lists 20 rows and `refresh` records 22 in
`screeny`; page-down from `current = 100` gives 122 and page-up gives 78, the terminal
height and not the 20 rows listed. -/
theorem doKey_page_by_terminal_height :
    (refreshListed sampleUnicode { sampleState with current := 100 } 22).length = 20 ∧
    (refresh { sampleState with current := 100 } 80 22).screeny = 22 ∧
    (doKey sampleUnicode "NEXT" ⟨[], []⟩
      (refresh { sampleState with current := 100 } 80 22)).2.current = 122 ∧
    (doKey sampleUnicode "PRIOR" ⟨[], []⟩
      (refresh { sampleState with current := 100 } 80 22)).2.current = 78 :=
  ⟨by decide, by decide, by decide, by decide⟩

/-- C13, amended: after a frame rendered by `refresh` at terminal height `h`, which lists
`h - 2` rows (none for `h < 2`) and records `h` in `screeny`, the page-down command adds `h`
to `current` and the page-up command subtracts `h`, as long as `h` and the result fit an
`int32`. -/
theorem doKey_page_delta (u : Unicode) (p : Prompted) (s : state) (sx h : Int)
    (hh : isInt32 h) (hup : isInt32 (s.current + h)) (hdn : isInt32 (s.current - h)) :
    (refreshListed u s h).length = (h - 2).toNat ∧
    (refresh s sx h).screeny = h ∧
    (∀ key, key = "NEXT" ∨ key = "C-v" →
      (doKey u key p (refresh s sx h)).2.current = s.current + h) ∧
    (∀ key, key = "PRIOR" ∨ key = "C-z" ∨ key = "M-v" →
      (doKey u key p (refresh s sx h)).2.current = s.current - h) := by
  refine ⟨refreshRows_length u s _ _, rfl, ?_, ?_⟩
  · intro key hk
    rw [doKey_pageDown_eq u key p _ hk]
    show wrap32 (s.current + wrap32 h) = s.current + h
    rw [wrap32_of_isInt32 h hh, wrap32_of_isInt32 _ hup]
  · intro key hk
    rw [doKey_pageUp_eq u key p _ hk]
    show wrap32 (s.current - wrap32 h) = s.current - h
    rw [wrap32_of_isInt32 h hh, wrap32_of_isInt32 _ hdn]

/-- The sample state with the cursor at 100 and a terminal of height 22. -/
theorem doKey_page_delta_witness :
    isInt32 22 ∧ isInt32 (({ sampleState with current := 100 } : state).current + 22) ∧
    isInt32 (({ sampleState with current := 100 } : state).current - 22) ∧
    (refreshListed sampleUnicode { sampleState with current := 100 } 22).length
      = ((22 : Int) - 2).toNat :=
  ⟨by decide, by decide, by decide,
    (doKey_page_delta sampleUnicode ⟨[], []⟩ { sampleState with current := 100 } 80 22
      (by decide) (by decide) (by decide)).1⟩

/-! ## doKey: return value and status -/

/-- Every key other than the quit key makes `doKey` return true. -/
theorem doKey_fst_of_ne (u : Unicode) (key : String) (p : Prompted) (s : state)
    (hq : key ≠ "C-c") : (doKey u key p s).1 = true := by
  by_cases h4 : key = "M-g"
  · rw [h4]
    cases hr : ParseUint p.text with
    | error e => rw [doKey_jump_failed u p s e hr]
    | ok n => rw [doKey_jump_parsed u p s n hr]
  by_cases hs : key = "C-s"
  · rw [hs, doKey_search_eq]
    cases searchLoop u (u.ToUpper (searchQuery s p.text)) s.unicodeMax
        (s.unicodeMax - wrap32 (s.current + 1)).toNat (wrap32 (s.current + 1)) with
    | none => rfl
    | some c => rfl
  by_cases h5 : key = "C-f"
  · rw [h5, doKey_find_eq]
    by_cases hd : (DecodeRuneInString p.text).1 = RuneError
    · rw [if_pos hd]
    · rw [if_neg hd]
  unfold doKey
  rw [if_neg hq, if_neg h4, if_neg hs, if_neg h5]
  split_ifs <;> rfl

/-- The status left by `doKey` is the one it found or a non-empty message. -/
theorem doKey_status (u : Unicode) (key : String) (p : Prompted) (s : state) :
    (doKey u key p s).2.status = s.status ∨ (doKey u key p s).2.status ≠ [] := by
  have hf : (Prompt p s).2.status = s.status := (Prompt_fields p s).2.2.2.1
  by_cases h4 : key = "M-g"
  · rw [h4]
    cases hr : ParseUint p.text with
    | error e =>
      rw [doKey_jump_failed u p s e hr]
      exact Or.inr (NumError.Error_ne_nil u e)
    | ok n =>
      rw [doKey_jump_parsed u p s n hr]
      exact Or.inl hf
  by_cases hs : key = "C-s"
  · rw [hs, doKey_search_eq]
    cases searchLoop u (u.ToUpper (searchQuery s p.text)) s.unicodeMax
        (s.unicodeMax - wrap32 (s.current + 1)).toNat (wrap32 (s.current + 1)) with
    | none =>
      right
      show str "No match found for " ++ searchQuery s p.text ≠ []
      have hm : str "No match found for " ≠ [] := by decide
      exact fun h => hm (List.append_eq_nil.mp h).1
    | some c => exact Or.inl hf
  by_cases h5 : key = "C-f"
  · rw [h5, doKey_find_eq]
    by_cases hd : (DecodeRuneInString p.text).1 = RuneError
    · rw [if_pos hd]
      right
      show str "No or erroneous rune provided" ≠ []
      decide
    · rw [if_neg hd]
      exact Or.inl hf
  left
  unfold doKey
  rw [if_neg h4, if_neg hs, if_neg h5]
  split_ifs <;> rfl

/-- The function `scroll` only changes `current`. -/
theorem scroll_status (u : Unicode) (s : state) : (scroll u s).status = s.status := by
  unfold scroll
  split_ifs <;> rfl

/-- C17: for every state, key and prompt input, `doKey` returns false if and only if the key
is the quit key `C-c`, and on that key it leaves the state unchanged; every other key,
unrecognised keys and failing jump, find and search commands included, returns true. -/
theorem doKey_false_iff_quit (u : Unicode) (key : String) (p : Prompted) (s : state) :
    ((doKey u key p s).1 = false ↔ key = "C-c") ∧
    doKey u "C-c" p s = (false, s) ∧
    ((doKey u key p s).1 = true ↔ key ≠ "C-c") := by
  have hq : doKey u "C-c" p s = (false, s) := by
    simp only [doKey, if_true]
  refine ⟨⟨?_, ?_⟩, hq, ⟨?_, ?_⟩⟩
  · intro h
    by_contra hne
    rw [doKey_fst_of_ne u key p s hne] at h
    exact Bool.noConfusion h
  · intro h
    rw [h, hq]
  · intro h hk
    rw [hk, hq] at h
    exact Bool.noConfusion h
  · exact doKey_fst_of_ne u key p s

/-- C20: no operation clears the status message: for every state with a non-empty status,
every key and every prompt input, the status after `doKey` is non-empty (it is the old
status or another non-empty message), and `scroll` and `refresh` leave the status as it is. -/
theorem status_never_cleared (u : Unicode) (key : String) (p : Prompted) (s : state)
    (hs : s.status ≠ []) :
    (doKey u key p s).2.status ≠ [] ∧
    ((doKey u key p s).2.status = s.status ∨ (doKey u key p s).2.status ≠ []) ∧
    (scroll u s).status = s.status ∧ (scroll u s).status ≠ [] ∧
    (∀ sx sy, (refresh s sx sy).status = s.status) ∧
    (scroll u (doKey u key p s).2).status ≠ [] := by
  have hd : (doKey u key p s).2.status ≠ [] := by
    rcases doKey_status u key p s with h | h
    · rw [h]; exact hs
    · exact h
  refine ⟨hd, doKey_status u key p s, scroll_status u s, ?_, fun _ _ => rfl, ?_⟩
  · rw [scroll_status]; exact hs
  · rw [scroll_status]; exact hd

/-- A failed jump sets a status on the sample state; a later, successful jump to `0x41`
keeps it. -/
theorem status_never_cleared_witness :
    (doKey sampleUnicode "M-g" ⟨[], str "not-a-number"⟩ sampleState).2.status ≠ [] ∧
    (doKey sampleUnicode "M-g" ⟨[], str "0x41"⟩
      (doKey sampleUnicode "M-g" ⟨[], str "not-a-number"⟩ sampleState).2).2.status ≠ [] :=
  ⟨by decide,
    (status_never_cleared sampleUnicode "M-g" ⟨[], str "0x41"⟩
      (doKey sampleUnicode "M-g" ⟨[], str "not-a-number"⟩ sampleState).2 (by decide)).1⟩

end Uexplore
